import Mathlib

set_option maxHeartbeats 1000000

/-!
Shallow embedding of the bytecode calculator (lexer, precedence compiler,
stack virtual machine) and proofs about the claims of its specification.

Conventions of the embedding:
* Source bytes and emitted opcode bytes are `Nat` (always < 256 by construction).
* IEEE-754 doubles are represented by their 64-bit pattern as a `Nat`;
  `f64::to_bits` / `from_bits` are then the identity.  Purely bit-level
  operations of the source (negation, comparison with `0.0`, finiteness and
  NaN tests, `i8 as f64`, little-endian encoding) are defined concretely.
  The platform's arithmetic (`+`, `-`, `*`, `/`, `powf`, `ln`, `sin`, `cos`,
  `sqrt` on doubles) is external to the repository and is abstracted as a
  `FloatOps` structure parameter.
* Rust panics (out-of-bounds slice indexing, `expect`/`unwrap_or_else` with
  `panic!`-style messages) are modelled as a distinguished outcome
  (`none` / `panicOut` / `vmPanic`).
* Loops and recursion are translated with explicit fuel so that every
  definition is structurally recursive and kernel-executable; the pipeline
  entry points pass generous fuel, and theorems about successful runs are
  stated through those entry points.
-/

/-- ASCII digit test, `u8::is_ascii_digit`. -/
def isDigit (c : Nat) : Bool := 48 ≤ c && c ≤ 57

/-- ASCII whitespace test, `u8::is_ascii_whitespace` (space, tab, LF, FF, CR). -/
def isWsByte (c : Nat) : Bool := c == 32 || c == 9 || c == 10 || c == 12 || c == 13

/-- `FuncType` from lexer.rs. -/
inductive FuncType where
  | Sqrt
  | Log
  | Sin
  | Cos
  | Pow
deriving DecidableEq

/-- `FuncType::arity`. -/
def FuncType.arity : FuncType → Nat
  | .Pow => 2
  | .Sqrt => 1
  | .Log => 1
  | .Cos => 1
  | .Sin => 1

/-- `FuncType as u8` (discriminant order Sqrt=0, Log=1, Sin=2, Cos=3, Pow=4). -/
def funcId : FuncType → Nat
  | .Sqrt => 0
  | .Log => 1
  | .Sin => 2
  | .Cos => 3
  | .Pow => 4

/-- `TryFrom<u8> for FuncType`. -/
def funcTryFrom (x : Nat) : Option FuncType :=
  if x = 0 then some .Sqrt
  else if x = 1 then some .Log
  else if x = 2 then some .Sin
  else if x = 3 then some .Cos
  else if x = 4 then some .Pow
  else none

/-- `Token` from lexer.rs; the `Number` payload is the borrowed byte slice. -/
inductive Tok where
  | number (ds : List Nat)
  | lparen
  | rparen
  | plus
  | minus
  | mult
  | div
  | func (k : FuncType)
  | comma
  | ans
deriving DecidableEq

/-- `Priority` from lexer.rs (declaration order gives the derived ordering). -/
inductive Priority where
  | pnull
  | pcomma
  | pnumber
  | pterm
  | pfactor
  | punary
  | pgroup
deriving DecidableEq

/-- Numeric rank of a priority, realising the derived `PartialOrd`/`Ord`. -/
def prioVal : Priority → Nat
  | .pnull => 0
  | .pcomma => 1
  | .pnumber => 2
  | .pterm => 3
  | .pfactor => 4
  | .punary => 5
  | .pgroup => 6

/-- `Priority::next`. -/
def Priority.next : Priority → Priority
  | .pnull => .pcomma
  | .pcomma => .pnumber
  | .pnumber => .pterm
  | .pterm => .pfactor
  | .pfactor => .punary
  | .punary => .pgroup
  | .pgroup => .pgroup

/-- `Token::priority`. -/
def tokPriority : Tok → Priority
  | .ans => .pnumber
  | .number _ => .pnumber
  | .func _ => .pfactor
  | .lparen => .pgroup
  | .rparen => .pnull
  | .plus => .pterm
  | .minus => .pterm
  | .mult => .pfactor
  | .div => .pfactor
  | .comma => .pcomma

/-- Lexer `Error`; the offending `char` is kept as its byte value. -/
inductive LexError where
  | eofE
  | invalidChar (c : Nat)
  | invalidNumberFormat (c : Nat)
deriving DecidableEq

/-- `Lexer` state: the borrowed source and the byte cursor `src_index`. -/
structure LexState where
  src : List Nat
  idx : Nat
deriving DecidableEq

/-- One scan outcome: a token or a lexer error. -/
inductive ScanOut where
  | tok (t : Tok)
  | lexErr (e : LexError)
deriving DecidableEq

/-- Number of leading whitespace bytes, realising the `skip_whitespace` loop. -/
def skipWsCount : List Nat → Nat
  | [] => 0
  | c :: r => if isWsByte c then skipWsCount r + 1 else 0

/-- Outcome of the `consume_number` loop: error at a byte, or a consumed count. -/
inductive NumScan where
  | bad (c : Nat) (cnt : Nat)
  | good (cnt : Nat)
deriving DecidableEq

/-- The `consume_number` while-loop over the remaining bytes, carrying the
`dot`/`exponent` flags, the previous byte, and the number of bytes consumed. -/
def numAux : List Nat → Bool → Bool → Option Nat → Nat → NumScan
  | [], _, _, _, cnt => .good cnt
  | c :: r, dot, expo, prev, cnt =>
    if c = 46 then
      if dot || expo then .bad c cnt else numAux r true expo (some c) (cnt + 1)
    else if c = 45 then
      match prev with
      | some p => if p ≠ 101 then .bad c cnt else numAux r dot expo (some c) (cnt + 1)
      | none => numAux r dot expo (some c) (cnt + 1)
    else if c = 101 then
      if expo then .bad c cnt
      else
        match prev with
        | some p =>
          if p ≠ 46 && !(isDigit p) then .bad c cnt
          else numAux r dot true (some c) (cnt + 1)
        | none => numAux r dot true (some c) (cnt + 1)
    else if !(isDigit c) then
      match prev with
      | some p => if p = 101 || p = 46 then .bad c cnt else .good cnt
      | none => .good cnt
    else numAux r dot expo (some c) (cnt + 1)

/-- `Lexer::consume_number`. -/
def consumeNumber (s : LexState) : Option (LexState × ScanOut) :=
  match numAux (s.src.drop s.idx) false false none 0 with
  | .bad c cnt => some (⟨s.src, s.idx + cnt⟩, .lexErr (.invalidNumberFormat c))
  | .good cnt => some (⟨s.src, s.idx + cnt⟩, .tok (.number ((s.src.drop s.idx).take cnt)))

/-- `Lexer::peek_word`: `&self.src[idx..idx+n]`, `none` when the slice
indexing would be out of bounds (a Rust panic). -/
def peekWord (s : LexState) (n : Nat) : Option (List Nat) :=
  if s.idx + n ≤ s.src.length then some ((s.src.drop s.idx).take n) else none

/-- `Lexer::parse_fn`. -/
def lexParseFn (s : LexState) (c : Nat) : Option (LexState × ScanOut) :=
  if c = 115 then
    match peekWord s 3 with
    | none => none
    | some w3 =>
      if w3 = [115, 105, 110] then some (⟨s.src, s.idx + 3⟩, .tok (.func .Sin))
      else
        match peekWord s 4 with
        | none => none
        | some w4 =>
          if w4 = [115, 113, 114, 116] then some (⟨s.src, s.idx + 4⟩, .tok (.func .Sqrt))
          else some (s, .lexErr (.invalidChar c))
  else if c = 99 then
    match peekWord s 3 with
    | none => none
    | some w3 =>
      if w3 = [99, 111, 115] then some (⟨s.src, s.idx + 3⟩, .tok (.func .Cos))
      else some (s, .lexErr (.invalidChar c))
  else if c = 108 then
    match peekWord s 3 with
    | none => none
    | some w3 =>
      if w3 = [108, 111, 103] then some (⟨s.src, s.idx + 3⟩, .tok (.func .Log))
      else some (s, .lexErr (.invalidChar c))
  else if c = 112 then
    match peekWord s 3 with
    | none => none
    | some w3 =>
      if w3 = [112, 111, 119] then some (⟨s.src, s.idx + 3⟩, .tok (.func .Pow))
      else some (s, .lexErr (.invalidChar c))
  else some (s, .lexErr (.invalidChar c))

/-- `Lexer::scan`: skip whitespace, then dispatch on the byte under the
cursor exactly as the `match` in the source does. -/
def lexScan (s : LexState) : Option (LexState × ScanOut) :=
  let j := s.idx + skipWsCount (s.src.drop s.idx)
  if h : j < s.src.length then
    let s1 : LexState := ⟨s.src, j⟩
    let c := s.src.get ⟨j, h⟩
    if isDigit c then consumeNumber s1
    else if c = 40 then some (⟨s.src, j + 1⟩, .tok .lparen)
    else if c = 41 then some (⟨s.src, j + 1⟩, .tok .rparen)
    else if c = 43 then some (⟨s.src, j + 1⟩, .tok .plus)
    else if c = 45 then some (⟨s.src, j + 1⟩, .tok .minus)
    else if c = 42 then some (⟨s.src, j + 1⟩, .tok .mult)
    else if c = 47 then some (⟨s.src, j + 1⟩, .tok .div)
    else if c = 44 then some (⟨s.src, j + 1⟩, .tok .comma)
    else if c = 97 then
      match peekWord s1 3 with
      | none => none
      | some w =>
        if w = [97, 110, 115] then some (⟨s.src, j + 3⟩, .tok .ans)
        else lexParseFn s1 c
    else lexParseFn s1 c
  else some (⟨s.src, j⟩, .lexErr .eofE)

/-- `Lexer::scan` after the whitespace skip: the dispatch of `scan` at an
absolute cursor `j` (so that `lexScan s` is this at `s.idx` plus the
skipped whitespace). -/
def lexScanCore (l : List Nat) (j : Nat) : Option (LexState × ScanOut) :=
  if h : j < l.length then
    let s1 : LexState := ⟨l, j⟩
    let c := l.get ⟨j, h⟩
    if isDigit c then consumeNumber s1
    else if c = 40 then some (⟨l, j + 1⟩, .tok .lparen)
    else if c = 41 then some (⟨l, j + 1⟩, .tok .rparen)
    else if c = 43 then some (⟨l, j + 1⟩, .tok .plus)
    else if c = 45 then some (⟨l, j + 1⟩, .tok .minus)
    else if c = 42 then some (⟨l, j + 1⟩, .tok .mult)
    else if c = 47 then some (⟨l, j + 1⟩, .tok .div)
    else if c = 44 then some (⟨l, j + 1⟩, .tok .comma)
    else if c = 97 then
      match peekWord s1 3 with
      | none => none
      | some w =>
        if w = [97, 110, 115] then some (⟨l, j + 3⟩, .tok .ans)
        else lexParseFn s1 c
    else lexParseFn s1 c
  else some (⟨l, j⟩, .lexErr .eofE)

/-- The terminal byte consumed so far by the `consume_number` loop: the
last element of the consumed prefix, or the incoming `prev`. -/
def lastD : List Nat → Option Nat → Option Nat
  | [], p => p
  | c :: r, _ => lastD r (some c)

/-- Little-endian 8-byte encoding of a 64-bit pattern, as the
`(as_u64 >> (i * 8)) & 0xFF` loop in `Compiler::emit_number` produces it. -/
def le8 (n : Nat) : List Nat :=
  [n % 256, n / 2 ^ 8 % 256, n / 2 ^ 16 % 256, n / 2 ^ 24 % 256,
   n / 2 ^ 32 % 256, n / 2 ^ 40 % 256, n / 2 ^ 48 % 256, n / 2 ^ 56 % 256]

/-- Little-endian decoding of payload bytes, the `parse_number` helper of
vm.rs (`res |= (b as u64) << (i * 8)`). -/
def leDecode (bs : List Nat) : Nat := bs.foldr (fun b acc => b + 256 * acc) 0

/-- IEEE-754 double negation flips the sign bit (`-a` on `f64`). -/
def negBits (a : Nat) : Nat := if a < 2 ^ 63 then a + 2 ^ 63 else a - 2 ^ 63

/-- The strict comparison `a == 0.0` on doubles: true exactly for the two
zero bit patterns (+0.0 and -0.0). -/
def isZeroF (a : Nat) : Bool := a == 0 || a == 2 ^ 63

/-- Exponent field of a double bit pattern. -/
def expField (a : Nat) : Nat := a / 2 ^ 52 % 2 ^ 11

/-- `f64::is_finite` on a bit pattern. -/
def isFiniteF (a : Nat) : Bool := expField a != 2047

/-- `f64::is_nan` on a bit pattern. -/
def isNanF (a : Nat) : Bool := expField a == 2047 && a % 2 ^ 52 != 0

/-- Fueled base-2 logarithm (kernel-friendly variant of `Nat.log2`):
largest `k` with `2 ^ k ≤ n` (0 for `n = 0`). -/
def log2F : Nat → Nat → Nat
  | 0, _ => 0
  | f + 1, n => if 2 ≤ n then log2F f (n / 2) + 1 else 0

/-- Base-2 logarithm. -/
def natLog2 (n : Nat) : Nat := log2F n n

/-- Bit pattern of the double representing a positive integer `m < 2^53`
(exact conversion). -/
def f64OfNatPos (m : Nat) : Nat :=
  (1023 + natLog2 m) * 2 ^ 52 + (m - 2 ^ natLog2 m) * 2 ^ (52 - natLog2 m)

/-- Bit pattern of the double of a small integer (`x as f64`, exact for
magnitudes below `2^53`). -/
def f64OfInt (n : Int) : Nat :=
  if n = 0 then 0
  else if 0 < n then f64OfNatPos n.toNat
  else 2 ^ 63 + f64OfNatPos (-n).toNat

/-- Round `n / d` (nats, `d ≠ 0`) to the nearest integer, ties to even. -/
def divRoundHalfEven (n d : Nat) : Nat :=
  let q := n / d
  let r := n % d
  if d < 2 * r then q + 1
  else if 2 * r < d then q
  else if q % 2 = 0 then q else q + 1

/-- Does `2 ^ k ≤ p / q` hold for the rational `p / q`? -/
def pow2LE (k : Int) (p q : Nat) : Bool :=
  if 0 ≤ k then decide (q * 2 ^ k.toNat ≤ p) else decide (q ≤ p * 2 ^ (-k).toNat)

/-- Pack exponent `k` and rounded scaled mantissa `m` into normal-form
double bits, bumping the exponent when rounding carried into `2^53`. -/
def encNormal (k : Int) (m : Nat) : Nat :=
  if 2 ^ 53 ≤ m then
    if 1023 < k + 1 then 2047 * 2 ^ 52
    else ((k + 1 + 1023).toNat) * 2 ^ 52
  else ((k + 1023).toNat) * 2 ^ 52 + (m - 2 ^ 52)

/-- Modelled from the spec: the "standard text-to-double parser"
(`str::parse::<f64>` of the Rust standard library, external to this
repository) is correctly rounded; this computes the nearest double
(ties to even) of the rational `M * 10 ^ E` as a bit pattern. -/
def roundF64 (M : Nat) (E : Int) : Nat :=
  if M = 0 then 0
  else
    let p : Nat := if 0 ≤ E then M * 10 ^ E.toNat else M
    let q : Nat := if 0 ≤ E then 1 else 10 ^ (-E).toNat
    let k0 : Int := (natLog2 p : Int) - (natLog2 q : Int)
    let k : Int := if pow2LE k0 p q then k0 else k0 - 1
    if 1023 < k then 2047 * 2 ^ 52
    else if k < -1022 then min (divRoundHalfEven (p * 2 ^ 1074) q) (2 ^ 52)
    else
      let s : Int := 52 - k
      let numer : Nat := if 0 ≤ s then p * 2 ^ s.toNat else p
      let denom : Nat := if 0 ≤ s then q else q * 2 ^ (-s).toNat
      encNormal k (divRoundHalfEven numer denom)

/-- Value of a digit string. -/
def digitsVal (l : List Nat) : Nat := l.foldl (fun a c => a * 10 + (c - 48)) 0

/-- All bytes are ASCII digits. -/
def allDigits (l : List Nat) : Bool := l.all isDigit

/-- Exponent part of a literal after the `e`: optional `-`, then at least
one digit and nothing else. -/
def expPart (mdigits : List Nat) (fracLen : Nat) (r : List Nat) : Option (Nat × Int) :=
  match r with
  | 45 :: r2 =>
    if r2 ≠ [] ∧ allDigits r2 then
      some (digitsVal mdigits, -(digitsVal r2 : Int) - (fracLen : Int))
    else none
  | _ =>
    if r ≠ [] ∧ allDigits r then
      some (digitsVal mdigits, (digitsVal r : Int) - (fracLen : Int))
    else none

/-- Decompose a numeric literal (digit-led, as the lexer produces them and
as Rust's `f64` grammar accepts them: `digits ['.' digits*] ['e' ['-'] digits+]`)
into mantissa digits value and a decimal exponent. -/
def rustParseMAndE (ds : List Nat) : Option (Nat × Int) :=
  let d1 := ds.takeWhile isDigit
  let r1 := ds.dropWhile isDigit
  if d1 = [] then none
  else
    match r1 with
    | [] => some (digitsVal d1, 0)
    | 46 :: r2 =>
      let d2 := r2.takeWhile isDigit
      let r3 := r2.dropWhile isDigit
      match r3 with
      | [] => some (digitsVal (d1 ++ d2), -(d2.length : Int))
      | 101 :: r4 => expPart (d1 ++ d2) d2.length r4
      | _ => none
    | 101 :: r2 => expPart d1 0 r2
    | _ => none

/-- Modelled from the spec: `str::from_utf8(..).ok().and_then(parse::<f64>)`
of `Compiler::emit_number` — the standard-library text-to-double conversion,
external to this repository: grammar check and correctly rounded value. -/
def rustParseF64 (ds : List Nat) : Option Nat :=
  (rustParseMAndE ds).map fun me => roundF64 me.1 me.2

/-- Compiler `Error` from compiler.rs (token payloads are kept as tokens in
place of their string rendering).  `missingExpression` is declared in the
source but never constructed. -/
inductive CompErr where
  | fromLexer (e : LexError)
  | invalidNumber (ds : List Nat)
  | invalidTokenBefore (prev : Tok) (current : Option Tok)
  | untermGroup
  | missingExpression
  | invalidToken (t : Tok)
  | missingFunctionParen
  | missingCommaInFunctionCall
deriving DecidableEq

/-- `Compiler` state over a scanner state `σ`: the two token slots and the
emitted byte buffer `chunk`. -/
structure CState (σ : Type) where
  prevTok : Option Tok
  currentTok : Option Tok
  chunk : List Nat
  scst : σ
deriving DecidableEq

/-- Result of a compiler step: Rust panic, fuel exhaustion of the embedding,
a compiler error, or success with the updated state. -/
inductive CRes (σ : Type) where
  | panicOut
  | fuelOut
  | errOut (e : CompErr)
  | okOut (st : CState σ)
deriving DecidableEq

/-- The `Scan` trait: one scanning step, `none` being a Rust panic. -/
def Scanner (σ : Type) := σ → Option (σ × ScanOut)

/-- `Compiler::advance`: shift `prev ← current`, scan; `Eof` becomes
"no current token", other lexer errors surface. -/
def advanceC {σ : Type} (sc : Scanner σ) (st : CState σ) : CRes σ :=
  match sc st.scst with
  | none => .panicOut
  | some (s2, .tok t) => .okOut ⟨st.currentTok, some t, st.chunk, s2⟩
  | some (s2, .lexErr e) =>
    if e = .eofE then .okOut ⟨st.currentTok, none, st.chunk, s2⟩
    else .errOut (.fromLexer e)

/-- `Compiler::consume`. -/
def consumeC {σ : Type} (sc : Scanner σ) (st : CState σ) (target : Tok) (e : CompErr) : CRes σ :=
  if st.currentTok = some target then advanceC sc st else .errOut e

/-- `Compiler::emit_number`: parse the digits as a double and append the
`Number` opcode (tag 0) with its 8 little-endian payload bytes. -/
def emitNumber {σ : Type} (ds : List Nat) (st : CState σ) : CRes σ :=
  match rustParseF64 ds with
  | some n => .okOut { st with chunk := st.chunk ++ 0 :: le8 n }
  | none => .errOut (.invalidNumber ds)

/-- The `?` operator of the compiler: sequence a step, propagating panic,
fuel exhaustion and errors. -/
def bindC {σ : Type} : CRes σ → (CState σ → CRes σ) → CRes σ
  | .okOut st, k => k st
  | .panicOut, _ => .panicOut
  | .fuelOut, _ => .fuelOut
  | .errOut e, _ => .errOut e

mutual

/-- `Compiler::expression`: advance, emit the prefix production for `prev`
(silently skipped when `prev` is `None` — the source has no
`MissingExpression` check), then the infix while-loop. -/
def expression {σ : Type} (sc : Scanner σ) : Nat → Priority → CState σ → CRes σ
  | 0, _, _ => .fuelOut
  | f + 1, p, st =>
    bindC (advanceC sc st) fun st1 =>
      bindC
        (match st1.prevTok with
         | none => .okOut st1
         | some .minus => emitUnary sc f st1
         | some (.number ds) => emitNumber ds st1
         | some .lparen => parseGroup sc f st1
         | some (.func k) => parseFnC sc f k st1
         | some .ans => .okOut { st1 with chunk := st1.chunk ++ [7] }
         | some t => .errOut (.invalidTokenBefore t st1.currentTok)) fun st2 =>
        infixLoop sc f p st2

/-- The while-loop of `Compiler::expression`: as long as the current token's
priority is at least the minimum, advance and parse a binary production. -/
def infixLoop {σ : Type} (sc : Scanner σ) : Nat → Priority → CState σ → CRes σ
  | 0, _, _ => .fuelOut
  | f + 1, p, st =>
    match st.currentTok with
    | none => .okOut st
    | some t =>
      if prioVal p ≤ prioVal (tokPriority t) then
        bindC (advanceC sc st) fun st1 =>
          match st1.prevTok with
          | none => infixLoop sc f p st1
          | some t2 =>
            if t2 = .div ∨ t2 = .plus ∨ t2 = .mult ∨ t2 = .minus then
              bindC (parseBinary sc f t2 st1) fun st2 => infixLoop sc f p st2
            else .errOut (.invalidToken t2)
      else .okOut st

/-- `Compiler::parse_binary`. -/
def parseBinary {σ : Type} (sc : Scanner σ) : Nat → Tok → CState σ → CRes σ
  | 0, _, _ => .fuelOut
  | f + 1, tok, st =>
    bindC (expression sc f (tokPriority tok).next st) fun st1 =>
      match tok with
      | .minus => .okOut { st1 with chunk := st1.chunk ++ [2] }
      | .plus => .okOut { st1 with chunk := st1.chunk ++ [1] }
      | .div => .okOut { st1 with chunk := st1.chunk ++ [4] }
      | .mult => .okOut { st1 with chunk := st1.chunk ++ [3] }
      | t => .errOut (.invalidToken t)

/-- `Compiler::parse_group`. -/
def parseGroup {σ : Type} (sc : Scanner σ) : Nat → CState σ → CRes σ
  | 0, _ => .fuelOut
  | f + 1, st =>
    bindC (expression sc f .pterm st) fun st1 =>
      consumeC sc st1 .rparen .untermGroup

/-- The `for _ in 0..arity-1` loop of `Compiler::parse_fn`: `n` operands
each followed by a comma. -/
def parseFnArgs {σ : Type} (sc : Scanner σ) : Nat → Nat → CState σ → CRes σ
  | 0, _, _ => .fuelOut
  | _ + 1, 0, st => .okOut st
  | f + 1, n + 1, st =>
    bindC (expression sc f .pterm st) fun st1 =>
      bindC (consumeC sc st1 .comma .missingCommaInFunctionCall) fun st2 =>
        parseFnArgs sc f n st2

/-- `Compiler::parse_fn`. -/
def parseFnC {σ : Type} (sc : Scanner σ) : Nat → FuncType → CState σ → CRes σ
  | 0, _, _ => .fuelOut
  | f + 1, k, st =>
    bindC (consumeC sc st .lparen .missingFunctionParen) fun st1 =>
      bindC
        (if 0 < k.arity then
          bindC (parseFnArgs sc f (k.arity - 1) st1) fun st2 =>
            expression sc f .pterm st2
        else .okOut st1) fun st3 =>
        bindC (consumeC sc st3 .rparen .missingFunctionParen) fun st4 =>
          .okOut { st4 with chunk := st4.chunk ++ [6, funcId k] }

/-- `Compiler::emit_unary`. -/
def emitUnary {σ : Type} (sc : Scanner σ) : Nat → CState σ → CRes σ
  | 0, _ => .fuelOut
  | f + 1, st =>
    bindC (expression sc f .punary st) fun st1 =>
      .okOut { st1 with chunk := st1.chunk ++ [5] }

end

/-- `Compiler::compile`: a first advance, `expression(Term)`, then the check
that no token remains. -/
def compileC {σ : Type} (sc : Scanner σ) (f : Nat) (st : CState σ) : CRes σ :=
  bindC (advanceC sc st) fun st1 =>
    bindC (expression sc f .pterm st1) fun st2 =>
      match st2.currentTok with
      | some t => .errOut (.invalidToken t)
      | none => .okOut st2

/-- Fuel that is ample for any terminating compile of a source of this
length (every mutual call consumes one unit and call depth is linear in the
input length). -/
def fuelFor (src : List Nat) : Nat := 4 * src.length + 64

/-- A fresh compiler (`Compiler::default` has empty token slots and chunk)
borrowing a fresh lexer over `src`. -/
def initCState (src : List Nat) : CState LexState := ⟨none, none, [], ⟨src, 0⟩⟩

/-- The whole compile pipeline on a byte buffer. -/
def compileBytes (src : List Nat) : CRes LexState :=
  compileC lexScan (fuelFor src) (initCState src)

/-- The opcode set of compiler.rs (`Op`, discriminants 0..7). -/
inductive Op where
  | numberOp
  | plusOp
  | minusOp
  | multOp
  | divOp
  | negateOp
  | funcOp
  | ansOp
deriving DecidableEq

/-- `TryFrom<u8> for Op`: bytes 0..=7; any other byte is `InvalidOpcode`
(on which `interpret` panics via `unwrap_or_else`). -/
def opTryFrom (x : Nat) : Option Op :=
  if x = 0 then some .numberOp
  else if x = 1 then some .plusOp
  else if x = 2 then some .minusOp
  else if x = 3 then some .multOp
  else if x = 4 then some .divOp
  else if x = 5 then some .negateOp
  else if x = 6 then some .funcOp
  else if x = 7 then some .ansOp
  else none

/-- The platform's IEEE-754 double arithmetic used by the VM (`+ - * /`,
`powf`, `ln`, `sin`, `cos`, `sqrt` from core/libm).  These are external to
the repository; the embedding is parametric in them, all other float
behaviour (bit tests, negation, encoding) being concrete. -/
structure FloatOps where
  add : Nat → Nat → Nat
  sub : Nat → Nat → Nat
  mul : Nat → Nat → Nat
  div : Nat → Nat → Nat
  powf : Nat → Nat → Nat
  ln : Nat → Nat
  sinF : Nat → Nat
  cosF : Nat → Nat
  sqrtF : Nat → Nat

/-- A throwaway concrete instance, used to instantiate theorems that hold
for every `FloatOps`. -/
def dummyOps : FloatOps :=
  ⟨fun _ _ => 0, fun _ _ => 0, fun _ _ => 0, fun _ _ => 0, fun _ _ => 0,
   fun _ => 0, fun _ => 0, fun _ => 0, fun _ => 0⟩

/-- `FuncArgs` from vm.rs. -/
inductive FuncArgs where
  | arg1 (a : Nat)
  | arg2 (a b : Nat)
deriving DecidableEq

/-- VM `Error` from vm.rs. -/
inductive VMError where
  | divisionByZero
  | emptyStack
  | invalidFunctionArgs (funcType : FuncType) (funcArgs : FuncArgs)
  | ansNotAvailable
deriving DecidableEq

/-- `VirtualMachine` state: instruction pointer, operand stack (head is the
top), and the saved answer. -/
structure VMState where
  ip : Nat
  stack : List Nat
  ansv : Option Nat
deriving DecidableEq

/-- Result of interpreting: Rust panic, fuel exhaustion of the embedding,
an error with the machine state at that point, or the popped result with
the final state. -/
inductive VMOut where
  | vmPanic
  | vmFuelOut
  | vmErr (e : VMError) (s : VMState)
  | vmOk (v : Nat) (s : VMState)
deriving DecidableEq

/-- `ops.add / sub / mul` selected by the opcode byte (1, 2 or 3);
the left operand `b` was popped second. -/
def binApply (ops : FloatOps) (b : Nat) (x y : Nat) : Nat :=
  if b = 1 then ops.add x y else if b = 2 then ops.sub x y else ops.mul x y

/-- The dispatch loop of `VirtualMachine::interpret`.  Reads the byte at
`ip`, decodes (a bad opcode or function id, an out-of-bounds operand read,
or a pop from an empty stack are panics), executes, and recurses; at
end of buffer pops the result (`EmptyStack` if none). -/
def interpF (ops : FloatOps) (code : List Nat) : Nat → VMState → VMOut
  | 0, _ => .vmFuelOut
  | f + 1, s =>
    if h : s.ip < code.length then
      match code.get ⟨s.ip, h⟩ with
      | 0 =>
        if s.ip + 9 ≤ code.length then
          interpF ops code f
            ⟨s.ip + 9, leDecode ((code.drop (s.ip + 1)).take 8) :: s.stack, s.ansv⟩
        else .vmPanic
      | 5 =>
        match s.stack with
        | a :: rest => interpF ops code f ⟨s.ip + 1, negBits a :: rest, s.ansv⟩
        | [] => .vmPanic
      | 1 =>
        match s.stack with
        | a :: b2 :: rest => interpF ops code f ⟨s.ip + 1, ops.add b2 a :: rest, s.ansv⟩
        | _ => .vmPanic
      | 2 =>
        match s.stack with
        | a :: b2 :: rest => interpF ops code f ⟨s.ip + 1, ops.sub b2 a :: rest, s.ansv⟩
        | _ => .vmPanic
      | 3 =>
        match s.stack with
        | a :: b2 :: rest => interpF ops code f ⟨s.ip + 1, ops.mul b2 a :: rest, s.ansv⟩
        | _ => .vmPanic
      | 4 =>
        match s.stack with
        | a :: b2 :: rest =>
          if isZeroF a then .vmErr .divisionByZero ⟨s.ip + 1, rest, s.ansv⟩
          else interpF ops code f ⟨s.ip + 1, ops.div b2 a :: rest, s.ansv⟩
        | _ => .vmPanic
      | 6 =>
        match (code.drop (s.ip + 1)).head? with
        | none => .vmPanic
        | some fb =>
          match funcTryFrom fb with
          | none => .vmPanic
          | some .Log =>
            match s.stack with
            | a :: rest =>
              if isFiniteF (ops.ln a) then
                interpF ops code f ⟨s.ip + 2, ops.ln a :: rest, s.ansv⟩
              else .vmErr (.invalidFunctionArgs .Log (.arg1 a)) ⟨s.ip + 2, rest, s.ansv⟩
            | [] => .vmPanic
          | some .Sin =>
            match s.stack with
            | a :: rest => interpF ops code f ⟨s.ip + 2, ops.sinF a :: rest, s.ansv⟩
            | [] => .vmPanic
          | some .Cos =>
            match s.stack with
            | a :: rest => interpF ops code f ⟨s.ip + 2, ops.cosF a :: rest, s.ansv⟩
            | [] => .vmPanic
          | some .Sqrt =>
            match s.stack with
            | a :: rest =>
              if isNanF (ops.sqrtF a) then
                .vmErr (.invalidFunctionArgs .Sqrt (.arg1 a)) ⟨s.ip + 2, rest, s.ansv⟩
              else interpF ops code f ⟨s.ip + 2, ops.sqrtF a :: rest, s.ansv⟩
            | [] => .vmPanic
          | some .Pow =>
            match s.stack with
            | expb :: base :: rest =>
              interpF ops code f ⟨s.ip + 2, ops.powf base expb :: rest, s.ansv⟩
            | _ => .vmPanic
      | 7 =>
        match s.ansv with
        | some a => interpF ops code f ⟨s.ip + 1, a :: s.stack, s.ansv⟩
        | none => .vmErr .ansNotAvailable ⟨s.ip + 1, s.stack, s.ansv⟩
      | _ => .vmPanic
    else
      match s.stack with
      | [] => .vmErr .emptyStack s
      | v :: rest => .vmOk v ⟨s.ip, rest, s.ansv⟩

/-- `VirtualMachine::interpret`, with fuel that cannot run out (the pointer
advances at every step). -/
def interp (ops : FloatOps) (code : List Nat) (s : VMState) : VMOut :=
  interpF ops code (code.length + 1) s

/-- `VirtualMachine::reset`. -/
def vmReset (a : Option Nat) (_s : VMState) : VMState := ⟨0, [], a⟩

/-- A fresh `VirtualMachine::default` (or `new(ans)`). -/
def freshVM (a : Option Nat) : VMState := ⟨0, [], a⟩

/-- What one REPL turn reports. -/
inductive ReplOut where
  | replOk (v : Nat)
  | replCompileErr (e : CompErr)
  | replVmErr (e : VMError)
  | replPanic
  | replFuel
deriving DecidableEq

/-- One iteration of `terminal::run_repl` on a non-blank line: compile
(on error, report and leave the VM alone), interpret, then `vm.reset(ans)`
where `ans` is `Some(value)` on success and `None` on a VM error. -/
def replTurn (ops : FloatOps) (vm : VMState) (input : List Nat) : VMState × ReplOut :=
  match compileBytes input with
  | .okOut st =>
    match interp ops st.chunk vm with
    | .vmOk v s2 => (vmReset (some v) s2, .replOk v)
    | .vmErr e s2 => (vmReset none s2, .replVmErr e)
    | .vmPanic => (vm, .replPanic)
    | .vmFuelOut => (vm, .replFuel)
  | .errOut e => (vm, .replCompileErr e)
  | .panicOut => (vm, .replPanic)
  | .fuelOut => (vm, .replFuel)

/-- Overall evaluation outcome of a source buffer. -/
inductive EvalOut where
  | evPanic
  | evFuel
  | evCErr (e : CompErr)
  | evVErr (e : VMError)
  | evOk (v : Nat)
deriving DecidableEq

/-- `terminal::run_file`: compile and interpret on a fresh VM (no answer). -/
def evalBytes (ops : FloatOps) (src : List Nat) : EvalOut :=
  match compileBytes src with
  | .okOut st =>
    match interp ops st.chunk (freshVM none) with
    | .vmOk v _ => .evOk v
    | .vmErr e _ => .evVErr e
    | .vmPanic => .evPanic
    | .vmFuelOut => .evFuel
  | .errOut e => .evCErr e
  | .panicOut => .evPanic
  | .fuelOut => .evFuel

/-- Byte list of an ASCII source string. -/
def strBytes (s : String) : List Nat := s.data.map Char.toNat

/-- Ans-field tracking for a VM outcome: on an error or a result, the
state's saved answer equals the given one. -/
def outAns : VMOut → Option Nat → Prop
  | .vmPanic, _ => True
  | .vmFuelOut, _ => True
  | .vmErr _ s, a => s.ansv = a
  | .vmOk _ s, a => s.ansv = a

/-- Well-formed single-value opcode streams (invariants (a)/(b) of the
spec's data model): postfix programs that push exactly one net value. -/
inductive Code1 : List Nat → Prop where
  | num (payload : List Nat) : payload.length = 8 → Code1 (0 :: payload)
  | ansC : Code1 [7]
  | neg (c : List Nat) : Code1 c → Code1 (c ++ [5])
  | bin (c d : List Nat) (t : Nat) : Code1 c → Code1 d →
      t = 1 ∨ t = 2 ∨ t = 3 ∨ t = 4 → Code1 (c ++ d ++ [t])
  | fn1 (c : List Nat) (k : FuncType) : Code1 c → k.arity = 1 →
      Code1 (c ++ [6, funcId k])
  | fn2 (c d : List Nat) : Code1 c → Code1 d → Code1 (c ++ d ++ [6, funcId .Pow])

/-- Static stack-depth analysis of an opcode stream: starting from depth
`d`, the depth after the stream, `none` on a malformed stream or a depth
underflow.  Mirrors the VM's pops and pushes instruction by instruction. -/
def runD : List Nat → Nat → Option Nat
  | [], d => some d
  | 0 :: _ :: _ :: _ :: _ :: _ :: _ :: _ :: _ :: r, d => runD r (d + 1)
  | 7 :: r, d => runD r (d + 1)
  | 5 :: r, d => if 1 ≤ d then runD r d else none
  | 1 :: r, d => if 2 ≤ d then runD r (d - 1) else none
  | 2 :: r, d => if 2 ≤ d then runD r (d - 1) else none
  | 3 :: r, d => if 2 ≤ d then runD r (d - 1) else none
  | 4 :: r, d => if 2 ≤ d then runD r (d - 1) else none
  | 6 :: fb :: r, d =>
    if fb = 4 then (if 2 ≤ d then runD r (d - 1) else none)
    else if fb ≤ 3 then (if 1 ≤ d then runD r d else none)
    else none
  | _, _ => none

/-- The source wrapped in one pair of parentheses. -/
def wrapParens (src : List Nat) : List Nat := 40 :: src ++ [41]

/-- A stream that pushes exactly one net value from any depth. -/
def Norm1 (e : List Nat) : Prop := ∀ d, runD e d = some (d + 1)

/-- A stream that pushes exactly `k` net values from any depth. -/
def NormK (e : List Nat) (k : Nat) : Prop := ∀ d, runD e d = some (d + k)

/-- Stack effect of a (possibly empty) infix chain: from depth `d + 1`
back to depth `d + 1` (it consumes and replaces the value below it). -/
def LoopP (e : List Nat) : Prop := ∀ d, runD e (d + 1) = some (d + 1)

/-- A deficient stream: it needs `m` values below it and leaves one. -/
def Defic (e : List Nat) (m : Nat) : Prop := ∀ d, runD e (m + d) = some (d + 1)

/-- A stream produced after the lexer ran dry inside `expression`: from any
depth at least `k` it nets `1 - k`, and it underflows below depth `k`. -/
def DoomE (e : List Nat) (k : Nat) : Prop :=
  ∀ d, runD e d = if k ≤ d then some (d + 1 - k) else none

/-- The analogous deficiency for a `parse_binary` production. -/
def DoomP (e : List Nat) (k : Nat) : Prop :=
  ∀ d, runD e d = if k + 1 ≤ d then some (d - k) else none

/-- The analogous deficiency for the infix while-loop (stated from one
value above the base depth, where the loop operates). -/
def DoomI (e : List Nat) (k : Nat) : Prop :=
  ∀ d, runD e (d + 1) = if k ≤ d then some (d + 1 - k) else none

/-- Synchronised compiler states of two scanner runs: same current token,
same emitted chunk, related scanner states. -/
def EntA {σ1 σ2 : Type} (R : σ1 → σ2 → Prop) (st1 : CState σ1) (st2 : CState σ2) : Prop :=
  st1.currentTok = st2.currentTok ∧ st1.chunk = st2.chunk ∧ R st1.scst st2.scst

/-- End-phase states: the first run has exhausted its input while the
second holds the wrapper's closing parenthesis as current token. -/
def EntB {σ1 σ2 : Type} (RT : σ2 → Prop) (E1 : σ1 → Prop)
    (st1 : CState σ1) (st2 : CState σ2) : Prop :=
  st1.currentTok = none ∧ st2.currentTok = some .rparen ∧ st1.chunk = st2.chunk ∧
    RT st2.scst ∧ E1 st1.scst

/-- Exit relation of the paired runs: still synchronised on a real token,
or the first run exhausted with the wrapper's parenthesis pending. -/
def EntX {σ1 σ2 : Type} (R : σ1 → σ2 → Prop) (RT : σ2 → Prop) (E1 : σ1 → Prop)
    (st1 : CState σ1) (st2 : CState σ2) : Prop :=
  (EntA R st1 st2 ∧ st1.currentTok ≠ none) ∨ EntB RT E1 st1 st2

/-- Lexer-state relation of the parenthesis wrapping: the second lexer
reads `(` ++ src ++ `)` one byte ahead of the first. -/
def Rrel (src : List Nat) (s t : LexState) : Prop :=
  s.src = src ∧ t.src = wrapParens src ∧ t.idx = s.idx + 1 ∧ s.idx ≤ src.length

/-- The second lexer sits past the end of the wrapped source. -/
def RTrel (src : List Nat) (t : LexState) : Prop :=
  t.src = wrapParens src ∧ (wrapParens src).length ≤ t.idx

/-- The first lexer sits past the end of its source. -/
def E1rel (src : List Nat) (s : LexState) : Prop :=
  s.src = src ∧ src.length ≤ s.idx

/-- Simulation statement for `expression` at one fuel level: a successful
run over the first scanner is matched by the second (with any larger fuel)
up to the exit relation, emitting an identical well-formed chunk suffix, or
the first scanner ran dry inside and the suffix is deficient. -/
def ExtExpr {σ1 σ2 : Type} (sc1 : Scanner σ1) (sc2 : Scanner σ2)
    (R : σ1 → σ2 → Prop) (RT : σ2 → Prop) (E1 : σ1 → Prop) (f : Nat) : Prop :=
  ∀ p st1 st2 r1, 1 ≤ prioVal p → EntA R st1 st2 → st1.currentTok ≠ none →
    expression sc1 f p st1 = .okOut r1 →
    (∃ r2 e, (∀ g, f ≤ g → expression sc2 g p st2 = .okOut r2) ∧
      EntX R RT E1 r1 r2 ∧ r1.chunk = st1.chunk ++ e ∧ Norm1 e) ∨
    (∃ e k, r1.chunk = st1.chunk ++ e ∧ DoomE e k ∧ 1 ≤ k ∧ r1.currentTok = none)

/-- Simulation statement for the infix while-loop. -/
def ExtInfix {σ1 σ2 : Type} (sc1 : Scanner σ1) (sc2 : Scanner σ2)
    (R : σ1 → σ2 → Prop) (RT : σ2 → Prop) (E1 : σ1 → Prop) (f : Nat) : Prop :=
  ∀ p st1 st2 r1, 1 ≤ prioVal p → EntX R RT E1 st1 st2 →
    infixLoop sc1 f p st1 = .okOut r1 →
    (∃ r2 e, (∀ g, f ≤ g → infixLoop sc2 g p st2 = .okOut r2) ∧
      EntX R RT E1 r1 r2 ∧ r1.chunk = st1.chunk ++ e ∧ LoopP e) ∨
    (∃ e k, r1.chunk = st1.chunk ++ e ∧ DoomI e k ∧ 1 ≤ k ∧ r1.currentTok = none)

/-- Simulation statement for `parse_binary`. -/
def ExtPb {σ1 σ2 : Type} (sc1 : Scanner σ1) (sc2 : Scanner σ2)
    (R : σ1 → σ2 → Prop) (RT : σ2 → Prop) (E1 : σ1 → Prop) (f : Nat) : Prop :=
  ∀ t st1 st2 r1, EntA R st1 st2 → st1.currentTok ≠ none →
    parseBinary sc1 f t st1 = .okOut r1 →
    (∃ r2 e, (∀ g, f ≤ g → parseBinary sc2 g t st2 = .okOut r2) ∧
      EntX R RT E1 r1 r2 ∧ r1.chunk = st1.chunk ++ e ∧ LoopP e) ∨
    (∃ e k, r1.chunk = st1.chunk ++ e ∧ DoomP e k ∧ 1 ≤ k ∧ r1.currentTok = none)

/-- Simulation statement for `parse_group` (it cannot end deficient: its
closing `consume` fails once the lexer has run dry). -/
def ExtPg {σ1 σ2 : Type} (sc1 : Scanner σ1) (sc2 : Scanner σ2)
    (R : σ1 → σ2 → Prop) (RT : σ2 → Prop) (E1 : σ1 → Prop) (f : Nat) : Prop :=
  ∀ st1 st2 r1, EntA R st1 st2 → st1.currentTok ≠ none →
    parseGroup sc1 f st1 = .okOut r1 →
    ∃ r2 e, (∀ g, f ≤ g → parseGroup sc2 g st2 = .okOut r2) ∧
      EntX R RT E1 r1 r2 ∧ r1.chunk = st1.chunk ++ e ∧ Norm1 e

/-- Simulation statement for the argument loop of `parse_fn`. -/
def ExtPfa {σ1 σ2 : Type} (sc1 : Scanner σ1) (sc2 : Scanner σ2)
    (R : σ1 → σ2 → Prop) (RT : σ2 → Prop) (E1 : σ1 → Prop) (f : Nat) : Prop :=
  ∀ n st1 st2 r1, EntX R RT E1 st1 st2 →
    parseFnArgs sc1 f n st1 = .okOut r1 →
    ∃ r2 e, (∀ g, f ≤ g → parseFnArgs sc2 g n st2 = .okOut r2) ∧
      EntX R RT E1 r1 r2 ∧ r1.chunk = st1.chunk ++ e ∧ NormK e n

/-- Simulation statement for `parse_fn`. -/
def ExtPfn {σ1 σ2 : Type} (sc1 : Scanner σ1) (sc2 : Scanner σ2)
    (R : σ1 → σ2 → Prop) (RT : σ2 → Prop) (E1 : σ1 → Prop) (f : Nat) : Prop :=
  ∀ k st1 st2 r1, EntA R st1 st2 → st1.currentTok ≠ none →
    parseFnC sc1 f k st1 = .okOut r1 →
    ∃ r2 e, (∀ g, f ≤ g → parseFnC sc2 g k st2 = .okOut r2) ∧
      EntX R RT E1 r1 r2 ∧ r1.chunk = st1.chunk ++ e ∧ Norm1 e

/-- Simulation statement for `emit_unary`. -/
def ExtEmitU {σ1 σ2 : Type} (sc1 : Scanner σ1) (sc2 : Scanner σ2)
    (R : σ1 → σ2 → Prop) (RT : σ2 → Prop) (E1 : σ1 → Prop) (f : Nat) : Prop :=
  ∀ st1 st2 r1, EntA R st1 st2 → st1.currentTok ≠ none →
    emitUnary sc1 f st1 = .okOut r1 →
    (∃ r2 e, (∀ g, f ≤ g → emitUnary sc2 g st2 = .okOut r2) ∧
      EntX R RT E1 r1 r2 ∧ r1.chunk = st1.chunk ++ e ∧ Norm1 e) ∨
    (∃ e k, r1.chunk = st1.chunk ++ e ∧ DoomE e k ∧ 1 ≤ k ∧ r1.currentTok = none)

/-- Scanner simulation for parenthesis wrapping: the second scanner yields
the same tokens as the first and a closing parenthesis where the first
reaches end of input. -/
structure ScanExt (σ1 σ2 : Type) (sc1 : Scanner σ1) (sc2 : Scanner σ2)
    (R : σ1 → σ2 → Prop) (RT : σ2 → Prop) (E1 : σ1 → Prop) : Prop where
  stepTok : ∀ s t s2 tok, R s t → sc1 s = some (s2, .tok tok) →
    ∃ t2, sc2 t = some (t2, .tok tok) ∧ R s2 t2
  stepEof : ∀ s t s2, R s t → sc1 s = some (s2, .lexErr .eofE) →
    E1 s2 ∧ ∃ t2, sc2 t = some (t2, .tok .rparen) ∧ RT t2
  eofStay : ∀ s, E1 s → sc1 s = some (s, .lexErr .eofE)
  rtEof : ∀ t, RT t → sc2 t = some (t, .lexErr .eofE)

/-- C9: compiling the empty buffer succeeds with an empty opcode stream, and
interpreting the empty stream fails with `EmptyStack`. -/
theorem c9_empty_input_compiles_interpret_empty_stack :
    ∀ ops : FloatOps,
      compileBytes [] = .okOut ⟨none, none, [], ⟨[], 0⟩⟩ ∧
      interp ops [] (freshVM none) = .vmErr .emptyStack (freshVM none) := by
  intro ops
  exact ⟨by decide, rfl⟩

/-- C3 (code bug): a `-` directly after a digit is rejected by
`consume_number` with `InvalidNumberFormat('-')`, so the joined source
`1-2-3` fails to lex and to compile instead of evaluating to `(1-2)-3`. -/
theorem c3_adjacent_minus_fails_to_lex :
    lexScan ⟨strBytes "1-2-3", 0⟩ =
      some (⟨strBytes "1-2-3", 1⟩, .lexErr (.invalidNumberFormat 45)) ∧
    compileBytes (strBytes "1-2-3") = .errOut (.fromLexer (.invalidNumberFormat 45)) ∧
    evalBytes dummyOps (strBytes "1-2-3") = .evCErr (.fromLexer (.invalidNumberFormat 45)) := by
  decide

/-- C4 (code bug): when fewer bytes remain than the probed keyword length,
`peek_word`'s slice indexing is out of bounds and `scan` panics (modelled
as `none`) on inputs such as `si`, `sqr`, `co` and a trailing `a`, instead
of returning `InvalidChar`; with enough bytes the error is returned (`cox`). -/
theorem c4_short_keyword_input_panics :
    lexScan ⟨strBytes "si", 0⟩ = none ∧
    lexScan ⟨strBytes "sqr", 0⟩ = none ∧
    lexScan ⟨strBytes "co", 0⟩ = none ∧
    lexScan ⟨strBytes "a", 0⟩ = none ∧
    lexScan ⟨strBytes "cox", 0⟩ = some (⟨strBytes "cox", 0⟩, .lexErr (.invalidChar 99)) := by
  decide

/-- C1 (code bug): the input `1+` compiles successfully (the parser silently
skips an absent prefix operand; the `MissingExpression` error variant is
never raised), and interpreting the resulting stream `[Number 1.0; Plus]`
panics on a stack pop underflow for every float arithmetic. -/
theorem c1_compiled_input_panics_vm :
    ∀ ops : FloatOps,
      compileBytes (strBytes "1+") =
        .okOut ⟨none, none, 0 :: le8 (f64OfInt 1) ++ [1], ⟨strBytes "1+", 2⟩⟩ ∧
      interp ops (0 :: le8 (f64OfInt 1) ++ [1]) (freshVM none) = .vmPanic := by
  intro ops
  exact ⟨by decide, rfl⟩

/-- C2 counterexample: the literal `1` is integral and in `[-128, 127]`, yet
the compiler emits opcode tag 0 (`Number`) with an 8-byte payload, not
tag 8 (`NumberI8`): this `Op` has no `NumberI8` and `emit_number` has no
small-integer branch. -/
theorem c2_counterexample_integral_literal_emits_Number :
    rustParseF64 (strBytes "1") = some (f64OfInt 1) ∧
    compileBytes (strBytes "1") =
      .okOut ⟨some (.number [49]), none, 0 :: le8 (f64OfInt 1), ⟨strBytes "1", 1⟩⟩ ∧
    (0 :: le8 (f64OfInt 1)).head? = some 0 ∧
    (0 :: le8 (f64OfInt 1)).head? ≠ some 8 := by
  decide

/-- C5 counterexample: after a successful REPL turn (`1`, ans = 1.0), a turn
that fails in the VM (`1/0`) resets the machine with `None`, so the saved
answer is cleared rather than left unchanged. -/
theorem c5_counterexample_vm_error_clears_ans :
    replTurn dummyOps (freshVM none) (strBytes "1") =
      (⟨0, [], some (f64OfInt 1)⟩, .replOk (f64OfInt 1)) ∧
    replTurn dummyOps ⟨0, [], some (f64OfInt 1)⟩ (strBytes "1/0") =
      (⟨0, [], none⟩, .replVmErr .divisionByZero) ∧
    (none : Option Nat) ≠ some (f64OfInt 1) := by
  decide

lemma interpF_outAns (ops : FloatOps) (code : List Nat) :
    ∀ f s, outAns (interpF ops code f s) s.ansv := by
  intro f
  induction f with
  | zero => intro s; trivial
  | succ f ih =>
    intro s
    rw [interpF]
    repeat' split
    all_goals first | trivial | rfl | exact ih _

/-- C5 amended: `interpret` itself never writes the `ans` field (it is
unchanged in both the error and the success state); in the REPL a turn
failing at compile time leaves the VM untouched, but a turn whose
interpretation fails calls `vm.reset(None)`, clearing the saved answer. -/
theorem c5_ans_preservation_and_repl_reset (ops : FloatOps) (code : List Nat) (s vm : VMState) (input : List Nat) :
    outAns (interp ops code s) s.ansv ∧
    (∀ e : CompErr, compileBytes input = .errOut e →
      replTurn ops vm input = (vm, .replCompileErr e)) ∧
    (∀ st e s2, compileBytes input = .okOut st → interp ops st.chunk vm = .vmErr e s2 →
      replTurn ops vm input = (⟨0, [], none⟩, .replVmErr e)) := by
  refine ⟨interpF_outAns ops code _ s, ?_, ?_⟩
  · intro e h
    simp [replTurn, h]
  · intro st e s2 h1 h2
    simp [replTurn, h1, h2, vmReset]

/-- Witness for C5's amended theorem at concrete inputs. -/
theorem c5_ans_preservation_and_repl_reset_witness :
    outAns (interp dummyOps [] (freshVM none)) none ∧
    replTurn dummyOps (freshVM (some 7)) (strBytes "1-2") =
      (freshVM (some 7), .replCompileErr (.fromLexer (.invalidNumberFormat 45))) ∧
    replTurn dummyOps (freshVM (some 7)) (strBytes "1/0") =
      (⟨0, [], none⟩, .replVmErr .divisionByZero) := by
  refine ⟨(c5_ans_preservation_and_repl_reset dummyOps [] (freshVM none) (freshVM none) []).1, ?_, ?_⟩
  · exact (c5_ans_preservation_and_repl_reset dummyOps [] (freshVM none) (freshVM (some 7)) (strBytes "1-2")).2.1
      (.fromLexer (.invalidNumberFormat 45)) (by decide)
  · exact (c5_ans_preservation_and_repl_reset dummyOps [] (freshVM none) (freshVM (some 7)) (strBytes "1/0")).2.2
      ⟨some (.number [48]), none,
        0 :: le8 (f64OfInt 1) ++ 0 :: le8 0 ++ [4], ⟨strBytes "1/0", 3⟩⟩
      .divisionByZero ⟨19, [], some 7⟩ (by decide) (by decide)

/-- C6: a binary opcode pops the right operand `a` first and the left
operand `b` second; `Div` fails with `DivisionByZero` exactly when the
popped divisor compares equal to `0.0` (both zero bit patterns, negative
zero included) and otherwise pushes `b/a`; `Plus`, `Minus`, `Mult` push
`b+a`, `b-a`, `b*a`. -/
theorem c6_binary_ops_pop_order_and_divzero (ops : FloatOps) (a b2 : Nat) (stack : List Nat) (av : Option Nat) :
    interp ops [4] ⟨0, a :: b2 :: stack, av⟩ =
      (if isZeroF a then .vmErr .divisionByZero ⟨1, stack, av⟩
       else .vmOk (ops.div b2 a) ⟨1, stack, av⟩) ∧
    interp ops [1] ⟨0, a :: b2 :: stack, av⟩ = .vmOk (ops.add b2 a) ⟨1, stack, av⟩ ∧
    interp ops [2] ⟨0, a :: b2 :: stack, av⟩ = .vmOk (ops.sub b2 a) ⟨1, stack, av⟩ ∧
    interp ops [3] ⟨0, a :: b2 :: stack, av⟩ = .vmOk (ops.mul b2 a) ⟨1, stack, av⟩ ∧
    (isZeroF a = true ↔ a = 0 ∨ a = 2 ^ 63) ∧
    isZeroF (2 ^ 63) = true := by
  refine ⟨?_, rfl, rfl, rfl, ?_, by decide⟩
  · cases h : isZeroF a <;> simp [interp, interpF, h]
  · simp [isZeroF]

lemma drop_len_lt {code : List Nat} {ip x} {r : List Nat} (h : code.drop ip = x :: r) :
    ip < code.length := by
  have := congrArg List.length h
  simp [List.length_drop] at this
  omega

lemma get_of_drop {code : List Nat} {ip x} {r : List Nat} (h : code.drop ip = x :: r)
    (hlt : ip < code.length) : code.get ⟨ip, hlt⟩ = x := by
  have h0 : (code.drop ip)[0]? = some x := by simp [h]
  rw [List.getElem?_drop] at h0
  simp only [List.get_eq_getElem]
  have h1 : code[ip + 0]? = code[ip]? := by norm_num
  rw [h1] at h0
  rw [List.getElem?_eq_getElem hlt] at h0
  exact Option.some_injective _ h0

lemma drop_succ_of_drop {code : List Nat} {ip x} {r : List Nat} (h : code.drop ip = x :: r) :
    code.drop (ip + 1) = r := by
  have : (code.drop ip).drop 1 = r := by simp [h]
  rw [List.drop_drop] at this
  exact this

lemma step_num (ops : FloatOps) (code : List Nat) (f ip : Nat) (stk : List Nat)
    (av : Option Nat) (payload r : List Nat) (h : code.drop ip = 0 :: (payload ++ r))
    (hp : payload.length = 8) :
    interpF ops code (f + 1) ⟨ip, stk, av⟩ =
      interpF ops code f ⟨ip + 9, leDecode payload :: stk, av⟩ := by
  have hlt := drop_len_lt h
  have hget := get_of_drop h hlt
  have h2 := drop_succ_of_drop h
  have hlen := congrArg List.length h
  simp only [List.length_drop, List.length_cons, List.length_append, hp] at hlen
  have hb : ip + 9 ≤ code.length := by omega
  have ht : (payload ++ r).take 8 = payload := by
    rw [← hp]; exact List.take_left _ _
  rw [interpF, dif_pos hlt, hget, h2]
  simp only [if_pos hb, ht]

lemma step_neg (ops : FloatOps) (code : List Nat) (f ip : Nat) (a : Nat) (stk : List Nat)
    (av : Option Nat) (r : List Nat) (h : code.drop ip = 5 :: r) :
    interpF ops code (f + 1) ⟨ip, a :: stk, av⟩ =
      interpF ops code f ⟨ip + 1, negBits a :: stk, av⟩ := by
  rw [interpF, dif_pos (drop_len_lt h), get_of_drop h (drop_len_lt h)]

lemma step_addOp (ops : FloatOps) (code : List Nat) (f ip : Nat) (a b2 : Nat)
    (stk : List Nat) (av : Option Nat) (r : List Nat) (h : code.drop ip = 1 :: r) :
    interpF ops code (f + 1) ⟨ip, a :: b2 :: stk, av⟩ =
      interpF ops code f ⟨ip + 1, ops.add b2 a :: stk, av⟩ := by
  rw [interpF, dif_pos (drop_len_lt h), get_of_drop h (drop_len_lt h)]

lemma step_subOp (ops : FloatOps) (code : List Nat) (f ip : Nat) (a b2 : Nat)
    (stk : List Nat) (av : Option Nat) (r : List Nat) (h : code.drop ip = 2 :: r) :
    interpF ops code (f + 1) ⟨ip, a :: b2 :: stk, av⟩ =
      interpF ops code f ⟨ip + 1, ops.sub b2 a :: stk, av⟩ := by
  rw [interpF, dif_pos (drop_len_lt h), get_of_drop h (drop_len_lt h)]

lemma step_mulOp (ops : FloatOps) (code : List Nat) (f ip : Nat) (a b2 : Nat)
    (stk : List Nat) (av : Option Nat) (r : List Nat) (h : code.drop ip = 3 :: r) :
    interpF ops code (f + 1) ⟨ip, a :: b2 :: stk, av⟩ =
      interpF ops code f ⟨ip + 1, ops.mul b2 a :: stk, av⟩ := by
  rw [interpF, dif_pos (drop_len_lt h), get_of_drop h (drop_len_lt h)]

lemma step_divOp (ops : FloatOps) (code : List Nat) (f ip : Nat) (a b2 : Nat)
    (stk : List Nat) (av : Option Nat) (r : List Nat) (h : code.drop ip = 4 :: r) :
    interpF ops code (f + 1) ⟨ip, a :: b2 :: stk, av⟩ =
      (if isZeroF a then .vmErr .divisionByZero ⟨ip + 1, stk, av⟩
       else interpF ops code f ⟨ip + 1, ops.div b2 a :: stk, av⟩) := by
  rw [interpF, dif_pos (drop_len_lt h), get_of_drop h (drop_len_lt h)]

lemma step_ansSome (ops : FloatOps) (code : List Nat) (f ip : Nat) (stk : List Nat)
    (a : Nat) (r : List Nat) (h : code.drop ip = 7 :: r) :
    interpF ops code (f + 1) ⟨ip, stk, some a⟩ =
      interpF ops code f ⟨ip + 1, a :: stk, some a⟩ := by
  rw [interpF, dif_pos (drop_len_lt h), get_of_drop h (drop_len_lt h)]

lemma step_ansNone (ops : FloatOps) (code : List Nat) (f ip : Nat) (stk : List Nat)
    (r : List Nat) (h : code.drop ip = 7 :: r) :
    interpF ops code (f + 1) ⟨ip, stk, none⟩ =
      .vmErr .ansNotAvailable ⟨ip + 1, stk, none⟩ := by
  rw [interpF, dif_pos (drop_len_lt h), get_of_drop h (drop_len_lt h)]

lemma step_log (ops : FloatOps) (code : List Nat) (f ip : Nat) (a : Nat) (stk : List Nat)
    (av : Option Nat) (r : List Nat) (h : code.drop ip = 6 :: 1 :: r) :
    interpF ops code (f + 1) ⟨ip, a :: stk, av⟩ =
      (if isFiniteF (ops.ln a) then interpF ops code f ⟨ip + 2, ops.ln a :: stk, av⟩
       else .vmErr (.invalidFunctionArgs .Log (.arg1 a)) ⟨ip + 2, stk, av⟩) := by
  rw [interpF, dif_pos (drop_len_lt h), get_of_drop h (drop_len_lt h), drop_succ_of_drop h]
  rfl

lemma step_sin (ops : FloatOps) (code : List Nat) (f ip : Nat) (a : Nat) (stk : List Nat)
    (av : Option Nat) (r : List Nat) (h : code.drop ip = 6 :: 2 :: r) :
    interpF ops code (f + 1) ⟨ip, a :: stk, av⟩ =
      interpF ops code f ⟨ip + 2, ops.sinF a :: stk, av⟩ := by
  rw [interpF, dif_pos (drop_len_lt h), get_of_drop h (drop_len_lt h), drop_succ_of_drop h]
  rfl

lemma step_cos (ops : FloatOps) (code : List Nat) (f ip : Nat) (a : Nat) (stk : List Nat)
    (av : Option Nat) (r : List Nat) (h : code.drop ip = 6 :: 3 :: r) :
    interpF ops code (f + 1) ⟨ip, a :: stk, av⟩ =
      interpF ops code f ⟨ip + 2, ops.cosF a :: stk, av⟩ := by
  rw [interpF, dif_pos (drop_len_lt h), get_of_drop h (drop_len_lt h), drop_succ_of_drop h]
  rfl

lemma step_sqrt (ops : FloatOps) (code : List Nat) (f ip : Nat) (a : Nat) (stk : List Nat)
    (av : Option Nat) (r : List Nat) (h : code.drop ip = 6 :: 0 :: r) :
    interpF ops code (f + 1) ⟨ip, a :: stk, av⟩ =
      (if isNanF (ops.sqrtF a) then
        .vmErr (.invalidFunctionArgs .Sqrt (.arg1 a)) ⟨ip + 2, stk, av⟩
       else interpF ops code f ⟨ip + 2, ops.sqrtF a :: stk, av⟩) := by
  rw [interpF, dif_pos (drop_len_lt h), get_of_drop h (drop_len_lt h), drop_succ_of_drop h]
  rfl

lemma step_pow (ops : FloatOps) (code : List Nat) (f ip : Nat) (e2 b2 : Nat)
    (stk : List Nat) (av : Option Nat) (r : List Nat) (h : code.drop ip = 6 :: 4 :: r) :
    interpF ops code (f + 1) ⟨ip, e2 :: b2 :: stk, av⟩ =
      interpF ops code f ⟨ip + 2, ops.powf b2 e2 :: stk, av⟩ := by
  rw [interpF, dif_pos (drop_len_lt h), get_of_drop h (drop_len_lt h), drop_succ_of_drop h]
  rfl

lemma interpF_end (ops : FloatOps) (code : List Nat) (f : Nat) (s : VMState)
    (h : code.length ≤ s.ip) :
    interpF ops code (f + 1) s =
      (match s.stack with
       | [] => .vmErr .emptyStack s
       | v :: rest => .vmOk v ⟨s.ip, rest, s.ansv⟩) := by
  rw [interpF, dif_neg (by omega)]

lemma drop_through {code : List Nat} {ip : Nat} {c X : List Nat}
    (h : code.drop ip = c ++ X) : code.drop (ip + c.length) = X := by
  have h2 : (code.drop ip).drop c.length = X := by
    rw [h]; exact List.drop_left _ _
  rw [List.drop_drop] at h2
  exact h2

lemma code1_steps (ops : FloatOps) {mid : List Nat} (hc : Code1 mid) :
    ∃ n, n ≤ mid.length ∧
      ∀ (code : List Nat) (ip : Nat) (rest stk : List Nat) (av : Option Nat) (f : Nat),
        code.drop ip = mid ++ rest →
        (∃ e s2, interpF ops code (f + n) ⟨ip, stk, av⟩ = .vmErr e s2) ∨
        (∃ v, interpF ops code (f + n) ⟨ip, stk, av⟩ =
          interpF ops code f ⟨ip + mid.length, v :: stk, av⟩) := by
  induction hc with
  | num payload hp =>
    refine ⟨1, by simp, ?_⟩
    intro code ip rest stk av f h
    right
    refine ⟨leDecode payload, ?_⟩
    have h2 : code.drop ip = 0 :: (payload ++ rest) := by simpa using h
    rw [step_num ops code f ip stk av payload rest h2 hp]
    have : ip + (0 :: payload).length = ip + 9 := by simp [hp]
    rw [this]
  | ansC =>
    refine ⟨1, by simp, ?_⟩
    intro code ip rest stk av f h
    cases av with
    | none =>
      left
      exact ⟨.ansNotAvailable, _, step_ansNone ops code f ip stk rest (by simpa using h)⟩
    | some a =>
      right
      exact ⟨a, step_ansSome ops code f ip stk a rest (by simpa using h)⟩
  | neg c hc1 ih =>
    obtain ⟨n1, hn1, IH⟩ := ih
    refine ⟨n1 + 1, by simp; omega, ?_⟩
    intro code ip rest stk av f h
    have h1 : code.drop ip = c ++ (5 :: rest) := by simpa using h
    have hfuel : f + (n1 + 1) = (f + 1) + n1 := by omega
    rw [hfuel]
    rcases IH code ip (5 :: rest) stk av (f + 1) h1 with ⟨e, s2, heq⟩ | ⟨v, heq⟩
    · exact Or.inl ⟨e, s2, heq⟩
    · right
      refine ⟨negBits v, ?_⟩
      have hL : ip + (c ++ [5]).length = ip + c.length + 1 := by
        simp only [List.length_append, List.length_cons, List.length_nil]
        omega
      rw [heq, step_neg ops code f (ip + c.length) v stk av rest (drop_through h1), hL]
  | bin c d t hc1 hd1 ht ihc ihd =>
    obtain ⟨nc, hnc, IHc⟩ := ihc
    obtain ⟨nd, hnd, IHd⟩ := ihd
    refine ⟨nc + nd + 1, by simp; omega, ?_⟩
    intro code ip rest stk av f h
    have h1 : code.drop ip = c ++ (d ++ t :: rest) := by simpa using h
    have hfuel : f + (nc + nd + 1) = ((f + 1) + nd) + nc := by omega
    rw [hfuel]
    rcases IHc code ip (d ++ t :: rest) stk av ((f + 1) + nd) h1 with ⟨e, s2, heq⟩ | ⟨v1, heq1⟩
    · exact Or.inl ⟨e, s2, heq⟩
    have h2 : code.drop (ip + c.length) = d ++ (t :: rest) := drop_through h1
    rcases IHd code (ip + c.length) (t :: rest) (v1 :: stk) av (f + 1) h2 with
      ⟨e, s2, heq⟩ | ⟨v2, heq2⟩
    · exact Or.inl ⟨e, s2, heq1.trans heq⟩
    have h3 : code.drop (ip + c.length + d.length) = t :: rest := drop_through h2
    have hL : ip + (c ++ d ++ [t]).length = ip + c.length + d.length + 1 := by
      simp only [List.length_append, List.length_cons, List.length_nil]
      omega
    rcases ht with rfl | rfl | rfl | rfl
    · right
      refine ⟨ops.add v1 v2, ?_⟩
      rw [heq1, heq2,
        step_addOp ops code f (ip + c.length + d.length) v2 v1 stk av rest h3, hL]
    · right
      refine ⟨ops.sub v1 v2, ?_⟩
      rw [heq1, heq2,
        step_subOp ops code f (ip + c.length + d.length) v2 v1 stk av rest h3, hL]
    · right
      refine ⟨ops.mul v1 v2, ?_⟩
      rw [heq1, heq2,
        step_mulOp ops code f (ip + c.length + d.length) v2 v1 stk av rest h3, hL]
    · by_cases hz : isZeroF v2
      · left
        refine ⟨.divisionByZero, ⟨ip + c.length + d.length + 1, stk, av⟩, ?_⟩
        rw [heq1, heq2,
          step_divOp ops code f (ip + c.length + d.length) v2 v1 stk av rest h3, if_pos hz]
      · right
        refine ⟨ops.div v1 v2, ?_⟩
        rw [heq1, heq2,
          step_divOp ops code f (ip + c.length + d.length) v2 v1 stk av rest h3, if_neg hz,
          hL]
  | fn1 c k hc1 hk ih =>
    obtain ⟨n1, hn1, IH⟩ := ih
    refine ⟨n1 + 1, by simp; omega, ?_⟩
    intro code ip rest stk av f h
    have h1 : code.drop ip = c ++ (6 :: funcId k :: rest) := by simpa using h
    have hfuel : f + (n1 + 1) = (f + 1) + n1 := by omega
    rw [hfuel]
    rcases IH code ip (6 :: funcId k :: rest) stk av (f + 1) h1 with ⟨e, s2, heq⟩ | ⟨v, heq⟩
    · exact Or.inl ⟨e, s2, heq⟩
    have h2 : code.drop (ip + c.length) = 6 :: funcId k :: rest := drop_through h1
    have hL : ip + (c ++ [6, funcId k]).length = ip + c.length + 2 := by
      simp only [List.length_append, List.length_cons, List.length_nil]
      omega
    cases k with
    | Pow => simp [FuncType.arity] at hk
    | Sqrt =>
      by_cases hq : isNanF (ops.sqrtF v)
      · left
        refine ⟨.invalidFunctionArgs .Sqrt (.arg1 v), ⟨ip + c.length + 2, stk, av⟩, ?_⟩
        rw [heq, step_sqrt ops code f (ip + c.length) v stk av rest h2, if_pos hq]
      · right
        refine ⟨ops.sqrtF v, ?_⟩
        rw [heq, step_sqrt ops code f (ip + c.length) v stk av rest h2, if_neg hq, hL]
    | Log =>
      by_cases hq : isFiniteF (ops.ln v)
      · right
        refine ⟨ops.ln v, ?_⟩
        rw [heq, step_log ops code f (ip + c.length) v stk av rest h2, if_pos hq, hL]
      · left
        refine ⟨.invalidFunctionArgs .Log (.arg1 v), ⟨ip + c.length + 2, stk, av⟩, ?_⟩
        rw [heq, step_log ops code f (ip + c.length) v stk av rest h2, if_neg hq]
    | Sin =>
      right
      refine ⟨ops.sinF v, ?_⟩
      rw [heq, step_sin ops code f (ip + c.length) v stk av rest h2, hL]
    | Cos =>
      right
      refine ⟨ops.cosF v, ?_⟩
      rw [heq, step_cos ops code f (ip + c.length) v stk av rest h2, hL]
  | fn2 c d hc1 hd1 ihc ihd =>
    obtain ⟨nc, hnc, IHc⟩ := ihc
    obtain ⟨nd, hnd, IHd⟩ := ihd
    refine ⟨nc + nd + 1, by simp; omega, ?_⟩
    intro code ip rest stk av f h
    have h1 : code.drop ip = c ++ (d ++ 6 :: funcId .Pow :: rest) := by simpa using h
    have hfuel : f + (nc + nd + 1) = ((f + 1) + nd) + nc := by omega
    rw [hfuel]
    rcases IHc code ip (d ++ 6 :: funcId .Pow :: rest) stk av ((f + 1) + nd) h1 with
      ⟨e, s2, heq⟩ | ⟨v1, heq1⟩
    · exact Or.inl ⟨e, s2, heq⟩
    have h2 : code.drop (ip + c.length) = d ++ (6 :: funcId .Pow :: rest) := drop_through h1
    rcases IHd code (ip + c.length) (6 :: funcId .Pow :: rest) (v1 :: stk) av (f + 1) h2 with
      ⟨e, s2, heq⟩ | ⟨v2, heq2⟩
    · exact Or.inl ⟨e, s2, heq1.trans heq⟩
    have h3 : code.drop (ip + c.length + d.length) = 6 :: funcId .Pow :: rest :=
      drop_through h2
    have hL : ip + (c ++ d ++ [6, funcId .Pow]).length = ip + c.length + d.length + 2 := by
      simp only [List.length_append, List.length_cons, List.length_nil]
      omega
    right
    refine ⟨ops.powf v1 v2, ?_⟩
    rw [heq1, heq2,
      step_pow ops code f (ip + c.length + d.length) v2 v1 stk av rest h3, hL]

/-- C10: `interpret` does not zero the instruction pointer on entry and on a
successful run over a well-formed stream leaves it at the buffer length
with an empty stack; a second `interpret` on the same machine returns
`EmptyStack`, while a `reset(ans)` in between reproduces the first result. -/
theorem c10_ip_not_reset_second_interpret_empty_stack (ops : FloatOps) (code : List Nat) (av : Option Nat) (v : Nat) (s1 : VMState)
    (hc : Code1 code) (h : interp ops code (freshVM av) = .vmOk v s1) :
    s1 = ⟨code.length, [], av⟩ ∧
    interp ops code s1 = .vmErr .emptyStack s1 ∧
    interp ops code (vmReset av s1) = .vmOk v s1 := by
  obtain ⟨n, hn, H⟩ := code1_steps ops hc
  have hdrop : code.drop 0 = code ++ [] := by simp
  have hfuel : (code.length + 1 - n) + n = code.length + 1 := by omega
  rw [interp] at h
  simp only [freshVM] at h
  rcases H code 0 [] [] av (code.length + 1 - n) hdrop with ⟨e, s2, heq⟩ | ⟨v1, heq⟩
  · rw [hfuel] at heq
    rw [h] at heq
    cases heq
  · rw [hfuel] at heq
    rw [h] at heq
    have hpos : 0 < code.length + 1 - n := by omega
    obtain ⟨f2, hf2⟩ : ∃ f2, code.length + 1 - n = f2 + 1 :=
      ⟨code.length - n, by omega⟩
    rw [hf2] at heq
    rw [interpF_end ops code f2 ⟨0 + code.length, [v1], av⟩ (by simp)] at heq
    simp only [Nat.zero_add] at heq
    obtain ⟨hv, hs⟩ : v = v1 ∧ s1 = ⟨code.length, [], av⟩ := by
      cases heq
      exact ⟨rfl, rfl⟩
    subst hv hs
    refine ⟨rfl, ?_, ?_⟩
    · rw [interp]
      rw [interpF_end ops code code.length ⟨code.length, [], av⟩ (by simp)]
    · rw [interp]
      exact h

/-- Witness for C10 on the concrete stream `[Number, le 5.0]`. -/
theorem c10_ip_not_reset_second_interpret_empty_stack_witness :
    (⟨9, [], none⟩ : VMState) = ⟨(0 :: le8 (f64OfInt 5)).length, [], none⟩ ∧
    interp dummyOps (0 :: le8 (f64OfInt 5)) ⟨9, [], none⟩ =
      .vmErr .emptyStack ⟨9, [], none⟩ ∧
    interp dummyOps (0 :: le8 (f64OfInt 5)) (vmReset none ⟨9, [], none⟩) =
      .vmOk (f64OfInt 5) ⟨9, [], none⟩ :=
  c10_ip_not_reset_second_interpret_empty_stack dummyOps (0 :: le8 (f64OfInt 5)) none
    (f64OfInt 5) ⟨9, [], none⟩ (Code1.num (le8 (f64OfInt 5)) rfl) (by decide)


lemma bindC_eq_ok {σ : Type} {r : CRes σ} {k : CState σ → CRes σ} {st' : CState σ} :
    bindC r k = .okOut st' ↔ ∃ st1, r = .okOut st1 ∧ k st1 = .okOut st' := by
  cases r <;> simp [bindC]

lemma advanceC_chunk {σ : Type} {sc : Scanner σ} {st st1 : CState σ}
    (h : advanceC sc st = .okOut st1) :
    st1.chunk = st.chunk ∧ st1.prevTok = st.currentTok := by
  unfold advanceC at h
  repeat' split at h
  · exact CRes.noConfusion h
  · cases h; exact ⟨rfl, rfl⟩
  · cases h; exact ⟨rfl, rfl⟩
  · exact CRes.noConfusion h

lemma consumeC_chunk {σ : Type} {sc : Scanner σ} {st st1 : CState σ} {target : Tok}
    {e : CompErr} (h : consumeC sc st target e = .okOut st1) :
    st1.chunk = st.chunk ∧ st.currentTok = some target := by
  unfold consumeC at h
  split at h
  · exact ⟨(advanceC_chunk h).1, by assumption⟩
  · exact CRes.noConfusion h

lemma emitNumber_chunk {σ : Type} {ds : List Nat} {st st1 : CState σ}
    (h : emitNumber ds st = .okOut st1) :
    ∃ n, rustParseF64 ds = some n ∧ st1.chunk = st.chunk ++ 0 :: le8 n ∧
      st1.currentTok = st.currentTok := by
  unfold emitNumber at h
  split at h
  · cases h
    exact ⟨_, by assumption, rfl, rfl⟩
  · exact CRes.noConfusion h

lemma chunk_ext {σ : Type} (sc : Scanner σ) : ∀ f : Nat,
    (∀ p st st', expression sc f p st = .okOut st' → ∃ e, st'.chunk = st.chunk ++ e) ∧
    (∀ p st st', infixLoop sc f p st = .okOut st' → ∃ e, st'.chunk = st.chunk ++ e) ∧
    (∀ t st st', parseBinary sc f t st = .okOut st' → ∃ e, st'.chunk = st.chunk ++ e) ∧
    (∀ st st', parseGroup sc f st = .okOut st' → ∃ e, st'.chunk = st.chunk ++ e) ∧
    (∀ n st st', parseFnArgs sc f n st = .okOut st' → ∃ e, st'.chunk = st.chunk ++ e) ∧
    (∀ k st st', parseFnC sc f k st = .okOut st' → ∃ e, st'.chunk = st.chunk ++ e) ∧
    (∀ st st', emitUnary sc f st = .okOut st' → ∃ e, st'.chunk = st.chunk ++ e) := by
  intro f
  induction f with
  | zero =>
    refine ⟨?_, ?_, ?_, ?_, ?_, ?_, ?_⟩ <;> intros <;> rename_i h <;>
      exact CRes.noConfusion h
  | succ f ih =>
    obtain ⟨ihE, ihL, ihB, ihG, ihA, ihF, ihU⟩ := ih
    have hcat : ∀ a b c : List Nat, ∀ x y z : List Nat,
        x = y ++ b → y = z ++ a → x = z ++ (a ++ b) := by
      intro a b c x y z h1 h2
      rw [h1, h2, List.append_assoc]
    refine ⟨?_, ?_, ?_, ?_, ?_, ?_, ?_⟩
    · intro p st st' h
      rw [expression, bindC_eq_ok] at h
      obtain ⟨st1, hadv, h⟩ := h
      rw [bindC_eq_ok] at h
      obtain ⟨st2, hpre, h⟩ := h
      obtain ⟨e2, he2⟩ := ihL p st2 st' h
      have h1 := (advanceC_chunk hadv).1
      have hmid : ∃ e, st2.chunk = st.chunk ++ e := by
        split at hpre
        · cases hpre; exact ⟨[], by simp [h1]⟩
        · obtain ⟨e1, he1⟩ := ihU st1 st2 hpre
          exact ⟨e1, by rw [he1, h1]⟩
        · obtain ⟨n, _, he1, _⟩ := emitNumber_chunk hpre
          exact ⟨0 :: le8 n, by rw [he1, h1]⟩
        · obtain ⟨e1, he1⟩ := ihG st1 st2 hpre
          exact ⟨e1, by rw [he1, h1]⟩
        · obtain ⟨e1, he1⟩ := ihF _ st1 st2 hpre
          exact ⟨e1, by rw [he1, h1]⟩
        · cases hpre; exact ⟨[7], by simp [h1]⟩
        · exact CRes.noConfusion hpre
      obtain ⟨e1, he1⟩ := hmid
      exact ⟨e1 ++ e2, hcat e1 e2 [] _ _ _ he2 he1⟩
    · intro p st st' h
      rw [infixLoop] at h
      split at h
      · cases h; exact ⟨[], by simp⟩
      · split at h
        · rw [bindC_eq_ok] at h
          obtain ⟨st1, hadv, h⟩ := h
          have h1 := (advanceC_chunk hadv).1
          split at h
          · obtain ⟨e2, he2⟩ := ihL p st1 st' h
            exact ⟨e2, by rw [he2, h1]⟩
          · split at h
            · rw [bindC_eq_ok] at h
              obtain ⟨st2, hbin, h⟩ := h
              obtain ⟨e1, he1⟩ := ihB _ st1 st2 hbin
              obtain ⟨e2, he2⟩ := ihL p st2 st' h
              exact ⟨e1 ++ e2, hcat e1 e2 [] _ _ _ he2 (by rw [he1, h1])⟩
            · exact CRes.noConfusion h
        · cases h; exact ⟨[], by simp⟩
    · intro t st st' h
      rw [parseBinary, bindC_eq_ok] at h
      obtain ⟨st1, hexp, h⟩ := h
      obtain ⟨e1, he1⟩ := ihE _ st st1 hexp
      split at h <;> first
        | (cases h; exact ⟨e1 ++ [_], by rw [he1, List.append_assoc]⟩)
        | exact CRes.noConfusion h
    · intro st st' h
      rw [parseGroup, bindC_eq_ok] at h
      obtain ⟨st1, hexp, h⟩ := h
      obtain ⟨e1, he1⟩ := ihE _ st st1 hexp
      obtain ⟨hc, _⟩ := consumeC_chunk h
      exact ⟨e1, by rw [hc, he1]⟩
    · intro n st st' h
      match n, h with
      | 0, h => cases h; exact ⟨[], by simp⟩
      | n + 1, h =>
        rw [parseFnArgs, bindC_eq_ok] at h
        obtain ⟨st1, hexp, h⟩ := h
        rw [bindC_eq_ok] at h
        obtain ⟨st2, hcon, h⟩ := h
        obtain ⟨e1, he1⟩ := ihE _ st st1 hexp
        obtain ⟨e2, he2⟩ := ihA n st2 st' h
        obtain ⟨hc, _⟩ := consumeC_chunk hcon
        exact ⟨e1 ++ e2, hcat e1 e2 [] _ _ _ he2 (by rw [hc, he1])⟩
    · intro k st st' h
      rw [parseFnC, bindC_eq_ok] at h
      obtain ⟨st1, hcon, h⟩ := h
      rw [bindC_eq_ok] at h
      obtain ⟨st3, hbody, h⟩ := h
      rw [bindC_eq_ok] at h
      obtain ⟨st4, hcon2, h⟩ := h
      cases h
      obtain ⟨hc1, _⟩ := consumeC_chunk hcon
      obtain ⟨hc4, _⟩ := consumeC_chunk hcon2
      have hb : ∃ e, st3.chunk = st.chunk ++ e := by
        split at hbody
        · rw [bindC_eq_ok] at hbody
          obtain ⟨st2, hargs, hbody⟩ := hbody
          obtain ⟨e1, he1⟩ := ihA _ st1 st2 hargs
          obtain ⟨e2, he2⟩ := ihE _ st2 st3 hbody
          exact ⟨e1 ++ e2, hcat e1 e2 [] _ _ _ he2 (by rw [he1, hc1])⟩
        · cases hbody; exact ⟨[], by simp [hc1]⟩
      obtain ⟨e1, he1⟩ := hb
      exact ⟨e1 ++ [6, funcId k], by
        simp only [hc4, he1, List.append_assoc]⟩
    · intro st st' h
      rw [emitUnary, bindC_eq_ok] at h
      obtain ⟨st1, hexp, h⟩ := h
      cases h
      obtain ⟨e1, he1⟩ := ihE _ st st1 hexp
      exact ⟨e1 ++ [5], by rw [he1, List.append_assoc]⟩

lemma encNormal_lt {k : Int} {m : Nat} (hk : k ≤ 1023) : encNormal k m < 2 ^ 64 := by
  have h52 : (2 : Nat) ^ 52 = 4503599627370496 := by norm_num
  have h53 : (2 : Nat) ^ 53 = 9007199254740992 := by norm_num
  have h64 : (2 : Nat) ^ 64 = 18446744073709551616 := by norm_num
  unfold encNormal
  split_ifs with h1 h2
  · omega
  · have ht : (k + 1 + 1023).toNat ≤ 2047 := by omega
    have := Nat.mul_le_mul_right (2 ^ 52) ht
    omega
  · have ht : (k + 1023).toNat ≤ 2046 := by omega
    have := Nat.mul_le_mul_right (2 ^ 52) ht
    omega

lemma roundF64_lt (M : Nat) (E : Int) : roundF64 M E < 2 ^ 64 := by
  have h52 : (2 : Nat) ^ 52 = 4503599627370496 := by norm_num
  have h64 : (2 : Nat) ^ 64 = 18446744073709551616 := by norm_num
  simp only [roundF64]
  split_ifs <;>
    first
      | omega
      | exact encNormal_lt (by omega)
      | exact lt_of_le_of_lt (Nat.min_le_right _ _) (by omega)

lemma rustParseF64_lt {ds : List Nat} {n : Nat} (h : rustParseF64 ds = some n) :
    n < 2 ^ 64 := by
  rw [rustParseF64] at h
  rcases hme : rustParseMAndE ds with _ | ⟨M, E⟩
  · rw [hme] at h; cases h
  · rw [hme] at h
    simp only [Option.map_some'] at h
    cases h
    exact roundF64_lt M E

lemma leDecode_le8 {n : Nat} (h : n < 2 ^ 64) : leDecode (le8 n) = n := by
  simp only [le8, leDecode, List.foldr]
  omega

/-- C2 amended: for every literal that parses as a double, `emit_number`
appends opcode 0 (`Number`) followed by exactly the 8 little-endian bytes
of the value, which decode back to it; a literal that does not parse
yields `InvalidNumber`.  `NumberI8` is never emitted. -/
theorem c2_number_emission_structure {σ : Type} (ds : List Nat) (st : CState σ) :
    (∀ n, rustParseF64 ds = some n →
      emitNumber ds st = .okOut { st with chunk := st.chunk ++ 0 :: le8 n } ∧
      leDecode (le8 n) = n) ∧
    (rustParseF64 ds = none → emitNumber ds st = .errOut (.invalidNumber ds)) := by
  constructor
  · intro n hn
    constructor
    · unfold emitNumber
      rw [hn]
    · exact leDecode_le8 (rustParseF64_lt hn)
  · intro hn
    unfold emitNumber
    rw [hn]

/-- Witness for C2's amended theorem at the literal `1`. -/
theorem c2_number_emission_structure_witness :
    emitNumber (strBytes "1") (⟨none, none, [], ()⟩ : CState Unit) =
      .okOut { (⟨none, none, [], ()⟩ : CState Unit) with
                chunk := ([] : List Nat) ++ 0 :: le8 (f64OfInt 1) } ∧
    leDecode (le8 (f64OfInt 1)) = f64OfInt 1 :=
  (c2_number_emission_structure (strBytes "1") _).1 (f64OfInt 1) (by decide)

/-- C7: `Pow` has arity 2 and `Sqrt`, `Log`, `Sin`, `Cos` arity 1; without a
left parenthesis `parse_fn` fails with `MissingFunctionParen`; a
successful parse appends `Func` (tag 6) and the function id after the
operands; operands are separated by commas (`MissingCommaInFunctionCall`
otherwise) and closed by a right parenthesis, as the concrete runs show. -/
theorem c7_function_call_parsing {σ : Type} (sc : Scanner σ) (f : Nat) (k : FuncType) (st : CState σ) :
    (FuncType.arity .Pow = 2 ∧ FuncType.arity .Sqrt = 1 ∧ FuncType.arity .Log = 1 ∧
      FuncType.arity .Sin = 1 ∧ FuncType.arity .Cos = 1) ∧
    (st.currentTok ≠ some .lparen →
      parseFnC sc (f + 1) k st = .errOut .missingFunctionParen) ∧
    (∀ st', parseFnC sc (f + 1) k st = .okOut st' →
      ∃ mid, st'.chunk = st.chunk ++ mid ++ [6, funcId k]) ∧
    compileBytes (strBytes "pow(1,2)") = .okOut ⟨some .rparen, none,
      (0 :: le8 (f64OfInt 1)) ++ (0 :: le8 (f64OfInt 2)) ++ [6, funcId .Pow],
      ⟨strBytes "pow(1,2)", 8⟩⟩ ∧
    compileBytes (strBytes "pow(1 2)") = .errOut .missingCommaInFunctionCall ∧
    compileBytes (strBytes "pow(1)") = .errOut .missingCommaInFunctionCall ∧
    compileBytes (strBytes "sin 1") = .errOut .missingFunctionParen ∧
    compileBytes (strBytes "sin(1") = .errOut .missingFunctionParen ∧
    compileBytes (strBytes "sin(1)") = .okOut ⟨some .rparen, none,
      (0 :: le8 (f64OfInt 1)) ++ [6, funcId .Sin], ⟨strBytes "sin(1)", 6⟩⟩ := by
  refine ⟨⟨rfl, rfl, rfl, rfl, rfl⟩, ?_, ?_, by decide, by decide, by decide, by decide,
    by decide, by decide⟩
  · intro h
    rw [parseFnC]
    unfold consumeC
    rw [if_neg h]
    rfl
  · intro st' h
    rw [parseFnC, bindC_eq_ok] at h
    obtain ⟨st1, hcon, h⟩ := h
    rw [bindC_eq_ok] at h
    obtain ⟨st3, hbody, h⟩ := h
    rw [bindC_eq_ok] at h
    obtain ⟨st4, hcon2, h⟩ := h
    cases h
    have hc1 := (consumeC_chunk hcon).1
    have hc4 := (consumeC_chunk hcon2).1
    have hb : ∃ mid, st3.chunk = st.chunk ++ mid := by
      split at hbody
      · rw [bindC_eq_ok] at hbody
        obtain ⟨st2, hargs, hexp⟩ := hbody
        obtain ⟨e1, he1⟩ := (chunk_ext sc f).2.2.2.2.1 _ st1 st2 hargs
        obtain ⟨e2, he2⟩ := (chunk_ext sc f).1 _ st2 st3 hexp
        exact ⟨e1 ++ e2, by rw [he2, he1, hc1, List.append_assoc]⟩
      · cases hbody
        exact ⟨[], by simp [hc1]⟩
    obtain ⟨mid, hmid⟩ := hb
    exact ⟨mid, by simp only [hc4, hmid, List.append_assoc]⟩

/-- Witness for C7 at a concrete state missing the left parenthesis. -/
theorem c7_function_call_parsing_witness :
    ¬ ((⟨some (.func .Sin), some (.number [49]), [], ⟨strBytes "sin 1", 4⟩⟩ :
        CState LexState).currentTok = some .lparen) ∧
    parseFnC lexScan 1 .Sin
      ⟨some (.func .Sin), some (.number [49]), [], ⟨strBytes "sin 1", 4⟩⟩ =
      .errOut .missingFunctionParen := by
  refine ⟨by decide, ?_⟩
  exact (c7_function_call_parsing lexScan 0 .Sin _).2.1 (by decide)

lemma runD_append : ∀ (a : List Nat) (d x : Nat), runD a d = some x →
    ∀ b, runD (a ++ b) d = runD b x := by
  intro a d x h b
  induction a, d using runD.induct generalizing x <;>
    simp only [List.nil_append, List.cons_append, runD] at h ⊢ <;>
    first
      | (injection h with hx; subst hx; rfl)
      | (exact Option.noConfusion h)
      | (rename_i ih; exact ih x h)
      | (split_ifs at h ⊢ <;>
          first
            | (exact Option.noConfusion h)
            | (rename_i ih _; exact ih x h)
            | (rename_i ih; exact ih x h)
            | (rename_i ih _ _; exact ih x h)
            | (rename_i ih _ _ _; exact ih x h))

lemma runD_shift : ∀ (a : List Nat) (d x c : Nat), runD a d = some x →
    runD a (d + c) = some (x + c) := by
  intro a d x c h
  induction a, d using runD.induct generalizing x <;>
    simp only [runD] at h ⊢ <;>
    first
      | (injection h with hx; subst hx; rfl)
      | (exact Option.noConfusion h)
      | (rename_i ih; have h2 := ih x h; convert h2 using 2; omega)
      | (split_ifs at h ⊢ <;>
          first
            | (exact Option.noConfusion h)
            | omega
            | (rename_i ih _; have h2 := ih x h; convert h2 using 2 <;> omega)
            | (rename_i ih; have h2 := ih x h; convert h2 using 2 <;> omega)
            | (rename_i ih _ _; have h2 := ih x h; convert h2 using 2 <;> omega)
            | (rename_i ih _ _ _; have h2 := ih x h; convert h2 using 2 <;> omega))

lemma runD_num_step {Y rest : List Nat} (hY : Y.length = 8) (d : Nat) :
    runD (0 :: (Y ++ rest)) d = runD rest (d + 1) := by
  rcases Y with _ | ⟨b1, Y⟩
  · simp at hY
  rcases Y with _ | ⟨b2, Y⟩
  · simp at hY
  rcases Y with _ | ⟨b3, Y⟩
  · simp at hY
  rcases Y with _ | ⟨b4, Y⟩
  · simp at hY
  rcases Y with _ | ⟨b5, Y⟩
  · simp at hY
  rcases Y with _ | ⟨b6, Y⟩
  · simp at hY
  rcases Y with _ | ⟨b7, Y⟩
  · simp at hY
  rcases Y with _ | ⟨b8, Y⟩
  · simp at hY
  have hnil : Y = [] := by
    cases Y
    · rfl
    · simp at hY
  subst hnil
  rfl

lemma drop_cons_self {code : List Nat} {ip : Nat} (h : ip < code.length) :
    code.drop ip = code.get ⟨ip, h⟩ :: code.drop (ip + 1) := by
  rw [List.drop_eq_getElem_cons h]
  rfl

lemma head_drop_cons {code : List Nat} {j b : Nat} (h : (code.drop j).head? = some b) :
    code.drop j = b :: code.drop (j + 1) := by
  rcases hd : code.drop j with _ | ⟨c, t⟩
  · rw [hd] at h; cases h
  · rw [hd] at h
    injection h with hc
    subst hc
    have h2 := drop_succ_of_drop hd
    exact congrArg (c :: .) h2.symm

lemma funcTryFrom_inv {fb : Nat} {k : FuncType} (h : funcTryFrom fb = some k) :
    fb = funcId k := by
  unfold funcTryFrom at h
  split_ifs at h <;> cases h <;> simp [funcId] <;> omega

lemma vm_runD (ops : FloatOps) (code : List Nat) : ∀ (f : Nat) (s : VMState) (v : Nat)
    (s2 : VMState), interpF ops code f s = .vmOk v s2 →
    runD (code.drop s.ip) s.stack.length = some (s2.stack.length + 1) := by
  intro f
  induction f with
  | zero => intro s v s2 h; exact VMOut.noConfusion h
  | succ f ih =>
    intro s v s2 h
    rw [interpF] at h
    split at h
    case isFalse hlen =>
      have hdrop : code.drop s.ip = [] := List.drop_eq_nil_of_le (by omega)
      split at h
      · exact VMOut.noConfusion h
      case _ v1 rest heq =>
        cases h
        rw [hdrop, heq]
        rfl
    case isTrue hlen =>
      have hdrop := drop_cons_self hlen
      split at h
      case h_1 hget =>
        split at h
        case isTrue hb =>
          have hT : ((code.drop (s.ip + 1)).take 8).length = 8 := by
            simp only [List.length_take, List.length_drop]
            omega
        -- reassemble the dropped tail as payload ++ rest
          have h2 : (code.drop (s.ip + 1)).drop 8 = code.drop (s.ip + 9) := by
            rw [List.drop_drop]
          have hsplit : code.drop (s.ip + 1) =
              (code.drop (s.ip + 1)).take 8 ++ code.drop (s.ip + 9) := by
            conv_lhs => rw [← List.take_append_drop 8 (code.drop (s.ip + 1))]
            rw [h2]
          rw [hdrop, hget]
          conv_lhs => rw [hsplit]
          rw [runD_num_step hT]
          exact ih _ _ _ h
        case isFalse => exact VMOut.noConfusion h
      case h_2 hget =>
        split at h
        case h_1 a rest heq =>
          rw [hdrop, hget, heq]
          show (if 1 ≤ rest.length + 1 then runD (code.drop (s.ip + 1)) (rest.length + 1)
            else none) = _
          rw [if_pos (by omega)]
          have := ih _ _ _ h
          simp only [List.length_cons] at this
          exact this
        case h_2 => exact VMOut.noConfusion h
      case h_3 hget =>
        split at h
        case h_1 a b2 rest heq =>
          rw [hdrop, hget, heq]
          show (if 2 ≤ rest.length + 1 + 1 then runD (code.drop (s.ip + 1)) (rest.length + 1 + 1 - 1)
            else none) = _
          rw [if_pos (by omega)]
          have := ih _ _ _ h
          simp only [List.length_cons] at this
          simpa using this
        case h_2 => exact VMOut.noConfusion h
      case h_4 hget =>
        split at h
        case h_1 a b2 rest heq =>
          rw [hdrop, hget, heq]
          show (if 2 ≤ rest.length + 1 + 1 then runD (code.drop (s.ip + 1)) (rest.length + 1 + 1 - 1)
            else none) = _
          rw [if_pos (by omega)]
          have := ih _ _ _ h
          simp only [List.length_cons] at this
          simpa using this
        case h_2 => exact VMOut.noConfusion h
      case h_5 hget =>
        split at h
        case h_1 a b2 rest heq =>
          rw [hdrop, hget, heq]
          show (if 2 ≤ rest.length + 1 + 1 then runD (code.drop (s.ip + 1)) (rest.length + 1 + 1 - 1)
            else none) = _
          rw [if_pos (by omega)]
          have := ih _ _ _ h
          simp only [List.length_cons] at this
          simpa using this
        case h_2 => exact VMOut.noConfusion h
      case h_6 hget =>
        split at h
        case h_1 a b2 rest heq =>
          split at h
          · exact VMOut.noConfusion h
          · rw [hdrop, hget, heq]
            show (if 2 ≤ rest.length + 1 + 1 then
              runD (code.drop (s.ip + 1)) (rest.length + 1 + 1 - 1) else none) = _
            rw [if_pos (by omega)]
            have := ih _ _ _ h
            simp only [List.length_cons] at this
            simpa using this
        case h_2 => exact VMOut.noConfusion h
      case h_7 hget =>
        split at h
        case h_1 => exact VMOut.noConfusion h
        case h_2 fb heqf =>
          have hd2 := head_drop_cons heqf
          split at h
          case h_1 => exact VMOut.noConfusion h
          case h_2 heqk =>
            have hfb := funcTryFrom_inv heqk
            subst hfb
            split at h
            case h_1 a rest heq =>
              split at h
              case isTrue =>
                rw [hdrop, hget, hd2, heq]
                show (if 1 ≤ rest.length + 1 then runD (code.drop (s.ip + 1 + 1)) (rest.length + 1)
                  else none) = _
                rw [if_pos (by omega)]
                have h9 := ih _ _ _ h
                simp only [List.length_cons] at h9
                simpa using h9
              case isFalse => exact VMOut.noConfusion h
            case h_2 => exact VMOut.noConfusion h
          case h_3 heqk =>
            have hfb := funcTryFrom_inv heqk
            subst hfb
            split at h
            case h_1 a rest heq =>
              rw [hdrop, hget, hd2, heq]
              show (if 1 ≤ rest.length + 1 then runD (code.drop (s.ip + 1 + 1)) (rest.length + 1)
                else none) = _
              rw [if_pos (by omega)]
              have h9 := ih _ _ _ h
              simp only [List.length_cons] at h9
              simpa using h9
            case h_2 => exact VMOut.noConfusion h
          case h_4 heqk =>
            have hfb := funcTryFrom_inv heqk
            subst hfb
            split at h
            case h_1 a rest heq =>
              rw [hdrop, hget, hd2, heq]
              show (if 1 ≤ rest.length + 1 then runD (code.drop (s.ip + 1 + 1)) (rest.length + 1)
                else none) = _
              rw [if_pos (by omega)]
              have h9 := ih _ _ _ h
              simp only [List.length_cons] at h9
              simpa using h9
            case h_2 => exact VMOut.noConfusion h
          case h_5 heqk =>
            have hfb := funcTryFrom_inv heqk
            subst hfb
            split at h
            case h_1 a rest heq =>
              split at h
              case isTrue => exact VMOut.noConfusion h
              case isFalse =>
                rw [hdrop, hget, hd2, heq]
                show (if 1 ≤ rest.length + 1 then runD (code.drop (s.ip + 1 + 1)) (rest.length + 1)
                  else none) = _
                rw [if_pos (by omega)]
                have h9 := ih _ _ _ h
                simp only [List.length_cons] at h9
                simpa using h9
            case h_2 => exact VMOut.noConfusion h
          case h_6 heqk =>
            have hfb := funcTryFrom_inv heqk
            subst hfb
            split at h
            case h_1 e2 b2 rest heq =>
              rw [hdrop, hget, hd2, heq]
              show (if 2 ≤ rest.length + 1 + 1 then
                runD (code.drop (s.ip + 1 + 1)) (rest.length + 1 + 1 - 1) else none) = _
              rw [if_pos (by omega)]
              have h9 := ih _ _ _ h
              simp only [List.length_cons] at h9
              simpa using h9
            case h_2 => exact VMOut.noConfusion h
      case h_8 hget =>
        split at h
        case h_1 a heqa =>
          rw [hdrop, hget]
          have := ih _ _ _ h
          simp only [List.length_cons] at this
          exact this
        case h_2 => exact VMOut.noConfusion h
      case h_9 => exact VMOut.noConfusion h

lemma runD_none_stable : ∀ (a : List Nat) (d D x : Nat) (b : List Nat),
    runD a D = some x → runD a d = none → runD (a ++ b) d = none := by
  intro a d D x b h1 h2
  induction a, d using runD.induct generalizing D x <;>
    simp only [List.nil_append, List.cons_append, runD] at h1 h2 ⊢ <;>
    first
      | exact Option.noConfusion h2
      | exact Option.noConfusion h1
      | (rename_i ih; exact ih _ _ h1 h2)
      | (split_ifs at h1 h2 ⊢ <;>
          first
            | rfl
            | exact Option.noConfusion h1
            | exact Option.noConfusion h2
            | (rename_i ih; exact ih _ _ h1 h2)
            | (rename_i ih _; exact ih _ _ h1 h2)
            | (rename_i ih _ _; exact ih _ _ h1 h2)
            | (rename_i ih _ _ _; exact ih _ _ h1 h2)
            | (rename_i ih _ _ _ _; exact ih _ _ h1 h2)
            | (rename_i ih; exact ih (by assumption) _ _ h1 h2)
            | (rename_i ih; exact ih (by assumption) (by assumption) _ _ h1 h2))

lemma norm1_num (x : Nat) : Norm1 (0 :: le8 x) := fun _ => rfl

lemma norm1_ans : Norm1 [7] := fun _ => rfl

lemma loopP_nil : LoopP [] := fun _ => rfl

lemma normK_nil : NormK [] 0 := fun _ => rfl

lemma norm1_append_loopP {e f : List Nat} (h1 : Norm1 e) (h2 : LoopP f) :
    Norm1 (e ++ f) := by
  intro d
  rw [runD_append e d (d + 1) (h1 d) f]
  exact h2 d

lemma loopP_append_loopP {e f : List Nat} (h1 : LoopP e) (h2 : LoopP f) :
    LoopP (e ++ f) := by
  intro d
  rw [runD_append e (d + 1) (d + 1) (h1 d) f]
  exact h2 d

lemma runD_op2 {b : Nat} (hb : b = 1 ∨ b = 2 ∨ b = 3 ∨ b = 4) (d : Nat) :
    runD [b] (d + 2) = some (d + 1) := by
  have h2 : 2 ≤ d + 2 := by omega
  rcases hb with rfl | rfl | rfl | rfl <;>
    · simp only [runD, if_pos h2]
      exact congrArg some (by omega)

lemma runD_op2_one {b : Nat} (hb : b = 1 ∨ b = 2 ∨ b = 3 ∨ b = 4) :
    runD [b] 1 = none := by
  rcases hb with rfl | rfl | rfl | rfl <;> decide

lemma pb_close {e : List Nat} {b : Nat} (h1 : Norm1 e)
    (hb : b = 1 ∨ b = 2 ∨ b = 3 ∨ b = 4) : LoopP (e ++ [b]) := by
  intro d
  rw [runD_append e (d + 1) (d + 2) (h1 (d + 1)) [b]]
  exact runD_op2 hb d

lemma norm1_append5 {e : List Nat} (h1 : Norm1 e) : Norm1 (e ++ [5]) := by
  intro d
  rw [runD_append e d (d + 1) (h1 d) [5]]
  show (if 1 ≤ d + 1 then runD [] (d + 1) else none) = some (d + 1)
  rw [if_pos (by omega)]
  rfl

lemma normK_step {e r : List Nat} {n : Nat} (h1 : Norm1 e) (h2 : NormK r n) :
    NormK (e ++ r) (n + 1) := by
  intro d
  rw [runD_append e d (d + 1) (h1 d) r, h2 (d + 1)]
  exact congrArg some (by omega)

lemma runD_fn_small {fid : Nat} (h : fid ≤ 3) (d : Nat) :
    runD [6, fid] (d + 1) = some (d + 1) := by
  show (if fid = 4 then (if 2 ≤ d + 1 then runD [] (d + 1 - 1) else none)
    else if fid ≤ 3 then (if 1 ≤ d + 1 then runD [] (d + 1) else none) else none) = _
  rw [if_neg (by omega), if_pos h, if_pos (by omega)]
  rfl

lemma runD_fn_pow {fid : Nat} (h : fid = 4) (d : Nat) :
    runD [6, fid] (d + 2) = some (d + 1) := by
  show (if fid = 4 then (if 2 ≤ d + 2 then runD [] (d + 2 - 1) else none)
    else if fid ≤ 3 then (if 1 ≤ d + 2 then runD [] (d + 2) else none) else none) = _
  rw [if_pos h, if_pos (by omega)]
  exact congrArg some (by omega)

lemma fn_close {e : List Nat} {k : FuncType} (h1 : NormK e k.arity) :
    Norm1 (e ++ [6, funcId k]) := by
  intro d
  rcases k
  case Pow =>
    rw [runD_append e d (d + 2) (h1 d) [6, funcId .Pow]]
    exact runD_fn_pow rfl d
  all_goals
    rw [runD_append e d (d + 1) (h1 d) [6, funcId _]]
    exact runD_fn_small (by decide) d

lemma doomE_five : DoomE [5] 1 := by
  intro d
  cases d with
  | zero => rfl
  | succ n =>
    show (if 1 ≤ n + 1 then runD [] (n + 1) else none) =
      if 1 ≤ n + 1 then some (n + 1 + 1 - 1) else none
    rw [if_pos (by omega), if_pos (by omega)]
    exact congrArg some (by omega)

lemma doomE_none_lt {e : List Nat} {k : Nat} (h : DoomE e k) {d : Nat} (hd : d < k) :
    ∀ b, runD (e ++ b) d = none := by
  intro b
  refine runD_none_stable e d k 1 b ?_ ?_
  · rw [h k, if_pos le_rfl]
    exact congrArg some (by omega)
  · rw [h d, if_neg (by omega)]

lemma doomE_append5 {e : List Nat} {k : Nat} (hk : 1 ≤ k) (h : DoomE e k) :
    DoomE (e ++ [5]) k := by
  intro d
  rcases le_or_lt k d with hd | hd
  · have he := h d
    rw [if_pos hd] at he
    rw [runD_append e d (d + 1 - k) he [5], if_pos hd]
    show (if 1 ≤ d + 1 - k then runD [] (d + 1 - k) else none) = some (d + 1 - k)
    rw [if_pos (by omega)]
    rfl
  · rw [if_neg (by omega)]
    exact doomE_none_lt h hd [5]

lemma doomE_pb {e : List Nat} {k b : Nat} (hk : 1 ≤ k) (h : DoomE e k)
    (hb : b = 1 ∨ b = 2 ∨ b = 3 ∨ b = 4) : DoomP (e ++ [b]) k := by
  intro d
  rcases Nat.lt_or_ge d k with hd | hd
  · rw [if_neg (by omega)]
    exact doomE_none_lt h hd [b]
  · rcases Nat.eq_or_lt_of_le hd with heq | hlt
    · rw [if_neg (by omega)]
      have he := h d
      rw [if_pos hd] at he
      have h1 : d + 1 - k = 1 := by omega
      rw [h1] at he
      rw [runD_append e d 1 he [b]]
      exact runD_op2_one hb
    · rw [if_pos (by omega)]
      have he := h d
      rw [if_pos hd] at he
      rw [runD_append e d (d + 1 - k) he [b]]
      have h3 : d + 1 - k = (d - k - 1) + 2 := by omega
      rw [h3, runD_op2 hb]
      exact congrArg some (by omega)

lemma doomP_single {b : Nat} (hb : b = 1 ∨ b = 2 ∨ b = 3 ∨ b = 4) :
    DoomP [b] 1 := by
  intro d
  rcases Nat.lt_or_ge d 2 with hd | hd
  · rw [if_neg (by omega)]
    interval_cases d
    · rcases hb with rfl | rfl | rfl | rfl <;> decide
    · exact runD_op2_one hb
  · rw [if_pos (by omega)]
    have h3 : d = (d - 2) + 2 := by omega
    rw [h3, runD_op2 hb]
    exact congrArg some (by omega)

lemma loopP_append_doomP {e q : List Nat} {k : Nat} (h1 : LoopP e) (h2 : DoomP q k) :
    DoomI (e ++ q) k := by
  intro d
  rw [runD_append e (d + 1) (d + 1) (h1 d) q, h2 (d + 1)]
  rcases le_or_lt k d with hd | hd
  · rw [if_pos (by omega), if_pos hd]
  · rw [if_neg (by omega), if_neg (by omega)]

lemma loopP_append_doomI {e q : List Nat} {k : Nat} (h1 : LoopP e) (h2 : DoomI q k) :
    DoomI (e ++ q) k := by
  intro d
  rw [runD_append e (d + 1) (d + 1) (h1 d) q]
  exact h2 d

lemma doomP_to_doomI {q : List Nat} {k : Nat} (h : DoomP q k) : DoomI q k := by
  intro d
  rw [h (d + 1)]
  rcases le_or_lt k d with hd | hd
  · rw [if_pos (by omega), if_pos hd]
  · rw [if_neg (by omega), if_neg (by omega)]

lemma norm1_append_doomI {e q : List Nat} {k : Nat} (h1 : Norm1 e) (h2 : DoomI q k) :
    DoomE (e ++ q) k := by
  intro d
  rw [runD_append e d (d + 1) (h1 d) q]
  exact h2 d

lemma bindC_ok {σ : Type} (st : CState σ) (k : CState σ → CRes σ) :
    bindC (.okOut st) k = k st := rfl

lemma advance_stay {σ : Type} {sc : Scanner σ} {st : CState σ}
    (hstay : sc st.scst = some (st.scst, .lexErr .eofE)) :
    advanceC sc st = .okOut ⟨st.currentTok, none, st.chunk, st.scst⟩ := by
  unfold advanceC
  rw [hstay]
  rfl

lemma advance_ext {σ1 σ2 : Type} {sc1 : Scanner σ1} {sc2 : Scanner σ2}
    {R : σ1 → σ2 → Prop} {RT : σ2 → Prop} {E1 : σ1 → Prop}
    (hext : ScanExt σ1 σ2 sc1 sc2 R RT E1) {st1 r1 : CState σ1} {st2 : CState σ2}
    (hA : EntA R st1 st2) (h : advanceC sc1 st1 = .okOut r1) :
    ∃ r2, advanceC sc2 st2 = .okOut r2 ∧ r1.prevTok = st1.currentTok ∧
      r2.prevTok = st2.currentTok ∧ r1.chunk = st1.chunk ∧ r2.chunk = st2.chunk ∧
      EntX R RT E1 r1 r2 := by
  obtain ⟨hcur, hch, hR⟩ := hA
  unfold advanceC at h
  repeat' split at h
  · exact CRes.noConfusion h
  · cases h
    rename_i s2 t heq
    obtain ⟨t2, hsc2, hR2⟩ := hext.stepTok _ _ _ _ hR heq
    refine ⟨⟨st2.currentTok, some t, st2.chunk, t2⟩, ?_, rfl, rfl, rfl, rfl, ?_⟩
    · unfold advanceC
      rw [hsc2]
    · left
      exact ⟨⟨rfl, hch, hR2⟩, by simp⟩
  · rename_i s2 e heq he
    subst he
    cases h
    obtain ⟨hE1, t2, hsc2, hRT⟩ := hext.stepEof _ _ _ hR heq
    refine ⟨⟨st2.currentTok, some .rparen, st2.chunk, t2⟩, ?_, rfl, rfl, rfl, rfl, ?_⟩
    · unfold advanceC
      rw [hsc2]
    · right
      exact ⟨rfl, rfl, hch, hRT, hE1⟩
  · exact CRes.noConfusion h

lemma expr_at_eof {σ1 : Type} {sc1 : Scanner σ1} {f : Nat} {p : Priority}
    {st r1 : CState σ1} (hnone : st.currentTok = none)
    (hstay : sc1 st.scst = some (st.scst, .lexErr .eofE))
    (h : expression sc1 f p st = .okOut r1) :
    r1 = ⟨none, none, st.chunk, st.scst⟩ := by
  cases f with
  | zero => rw [expression] at h; exact CRes.noConfusion h
  | succ f' =>
    rw [expression, advance_stay hstay, bindC_ok] at h
    simp only [hnone, bindC_ok] at h
    cases f' with
    | zero => rw [infixLoop] at h; exact CRes.noConfusion h
    | succ f2 =>
      rw [infixLoop] at h
      simp only [] at h
      injection h with h2
      exact h2.symm

lemma pb_at_eof {σ1 : Type} {sc1 : Scanner σ1} {f : Nat} {t : Tok}
    {st r1 : CState σ1} (hnone : st.currentTok = none)
    (hstay : sc1 st.scst = some (st.scst, .lexErr .eofE))
    (h : parseBinary sc1 f t st = .okOut r1) :
    ∃ b, (b = 1 ∨ b = 2 ∨ b = 3 ∨ b = 4) ∧
      r1 = ⟨none, none, st.chunk ++ [b], st.scst⟩ := by
  cases f with
  | zero => rw [parseBinary] at h; exact CRes.noConfusion h
  | succ f' =>
    rw [parseBinary, bindC_eq_ok] at h
    obtain ⟨st1, hexp, h⟩ := h
    have h1 := expr_at_eof hnone hstay hexp
    subst h1
    rcases t <;> simp only [] at h <;>
      first
        | exact CRes.noConfusion h
        | (injection h with h2;
           exact ⟨_, by simp, h2.symm⟩)

lemma emitU_at_eof {σ1 : Type} {sc1 : Scanner σ1} {f : Nat}
    {st r1 : CState σ1} (hnone : st.currentTok = none)
    (hstay : sc1 st.scst = some (st.scst, .lexErr .eofE))
    (h : emitUnary sc1 f st = .okOut r1) :
    r1 = ⟨none, none, st.chunk ++ [5], st.scst⟩ := by
  cases f with
  | zero => rw [emitUnary] at h; exact CRes.noConfusion h
  | succ f' =>
    rw [emitUnary, bindC_eq_ok] at h
    obtain ⟨st1, hexp, h⟩ := h
    have h1 := expr_at_eof hnone hstay hexp
    subst h1
    injection h with h2
    exact h2.symm

lemma normK_append_norm1 {e r : List Nat} {n : Nat} (h1 : NormK e n) (h2 : Norm1 r) :
    NormK (e ++ r) (n + 1) := by
  intro d
  rw [runD_append e d (d + n) (h1 d) r, h2 (d + n)]
  exact congrArg some (by omega)

lemma arity_pos (k : FuncType) : 0 < k.arity := by
  cases k <;> decide

lemma prio_next_pos (q : Priority) : 1 ≤ prioVal (Priority.next q) := by
  cases q <;> decide

lemma infix_none {σ1 : Type} {sc1 : Scanner σ1} {f : Nat} {p : Priority}
    {st r : CState σ1} (hn : st.currentTok = none)
    (h : infixLoop sc1 f p st = .okOut r) : r = st := by
  cases f with
  | zero => rw [infixLoop] at h; exact CRes.noConfusion h
  | succ f2 =>
    rw [infixLoop, hn] at h
    injection h with h2
    exact h2.symm

lemma ext_mutual {σ1 σ2 : Type} {sc1 : Scanner σ1} {sc2 : Scanner σ2}
    {R : σ1 → σ2 → Prop} {RT : σ2 → Prop} {E1 : σ1 → Prop}
    (hext : ScanExt σ1 σ2 sc1 sc2 R RT E1) : ∀ f,
    ExtExpr sc1 sc2 R RT E1 f ∧ ExtInfix sc1 sc2 R RT E1 f ∧ ExtPb sc1 sc2 R RT E1 f ∧
    ExtPg sc1 sc2 R RT E1 f ∧ ExtPfa sc1 sc2 R RT E1 f ∧ ExtPfn sc1 sc2 R RT E1 f ∧
    ExtEmitU sc1 sc2 R RT E1 f := by
  intro f
  induction f with
  | zero =>
    refine ⟨?_, ?_, ?_, ?_, ?_, ?_, ?_⟩
    · intro p st1 st2 r1 _ _ _ h
      rw [expression] at h
      exact CRes.noConfusion h
    · intro p st1 st2 r1 _ _ h
      rw [infixLoop] at h
      exact CRes.noConfusion h
    · intro t st1 st2 r1 _ _ h
      rw [parseBinary] at h
      exact CRes.noConfusion h
    · intro st1 st2 r1 _ _ h
      rw [parseGroup] at h
      exact CRes.noConfusion h
    · intro n st1 st2 r1 _ h
      rw [parseFnArgs] at h
      exact CRes.noConfusion h
    · intro k st1 st2 r1 _ _ h
      rw [parseFnC] at h
      exact CRes.noConfusion h
    · intro st1 st2 r1 _ _ h
      rw [emitUnary] at h
      exact CRes.noConfusion h
  | succ f ih =>
    obtain ⟨ihE, ihI, ihB, ihG, ihA, ihF, ihU⟩ := ih
    refine ⟨?_, ?_, ?_, ?_, ?_, ?_, ?_⟩
    · intro p st1 st2 r1 hp hA hne h
      obtain ⟨t0, ht0⟩ := Option.ne_none_iff_exists'.mp hne
      rw [expression, bindC_eq_ok] at h
      obtain ⟨sa, hadv1, h⟩ := h
      rw [bindC_eq_ok] at h
      obtain ⟨sb, hpre1, hinf1⟩ := h
      obtain ⟨sa2, hadv2, hprev1, hprev2, hach1, hach2, hXa⟩ := advance_ext hext hA hadv1
      have hpv1 : sa.prevTok = some t0 := hprev1.trans ht0
      have hpv2 : sa2.prevTok = some t0 := hprev2.trans (hA.1.symm.trans ht0)
      rw [hpv1] at hpre1
      rcases t0
      case number ds =>
        simp only [] at hpre1
        unfold emitNumber at hpre1
        split at hpre1
        case h_2 => exact CRes.noConfusion hpre1
        case h_1 n hparse =>
          injection hpre1 with hsb
          rw [← hsb] at hinf1
          have hXb : EntX R RT E1 {sa with chunk := sa.chunk ++ 0 :: le8 n}
              {sa2 with chunk := sa2.chunk ++ 0 :: le8 n} := by
            rcases hXa with ⟨⟨hca, hcha, hRa⟩, hna⟩ | ⟨h1na, h2ra, hcha, hRTa, hEa⟩
            · exact Or.inl ⟨⟨hca, by simp [hcha], hRa⟩, hna⟩
            · exact Or.inr ⟨h1na, h2ra, by simp [hcha], hRTa, hEa⟩
          have hchkb : (⟨some (Tok.number ds), sa.currentTok, sa.chunk ++ 0 :: le8 n,
              sa.scst⟩ : CState σ1).chunk = st1.chunk ++ (0 :: le8 n) := by
            show sa.chunk ++ _ = _
            rw [hach1]
          rcases ihI p _ _ r1 hp hXb hinf1 with
            ⟨rc2, e2, hrun2, hXc, hchk2, hL2⟩ | ⟨e2, k2, hchk2, hD2, hk2, hcn2⟩
          · refine Or.inl ⟨rc2, (0 :: le8 n) ++ e2, ?_, hXc, ?_, norm1_append_loopP (norm1_num n) hL2⟩
            · intro g hg
              cases g with
              | zero => exact absurd hg (by omega)
              | succ g2 =>
                have hg2 : f ≤ g2 := by omega
                rw [expression, hadv2]
                simp only [bindC_ok]
                rw [hpv2]
                simp only []
                unfold emitNumber
                rw [hparse]
                simp only []
                simp only [bindC_ok]
                exact hrun2 g2 hg2
            · rw [hchk2, hchkb, List.append_assoc]
          · refine Or.inr ⟨(0 :: le8 n) ++ e2, k2, ?_, norm1_append_doomI (norm1_num n) hD2, hk2, hcn2⟩
            rw [hchk2, hchkb, List.append_assoc]
      case ans =>
        simp only [] at hpre1
        injection hpre1 with hsb
        rw [← hsb] at hinf1
        have hXb : EntX R RT E1
            ⟨some Tok.ans, sa.currentTok, sa.chunk ++ [7], sa.scst⟩
            ⟨some Tok.ans, sa2.currentTok, sa2.chunk ++ [7], sa2.scst⟩ := by
          rcases hXa with ⟨⟨hca, hcha, hRa⟩, hna⟩ | ⟨h1na, h2ra, hcha, hRTa, hEa⟩
          · exact Or.inl ⟨⟨hca, by simp [hcha], hRa⟩, hna⟩
          · exact Or.inr ⟨h1na, h2ra, by simp [hcha], hRTa, hEa⟩
        have hchkb : (⟨some Tok.ans, sa.currentTok, sa.chunk ++ [7],
            sa.scst⟩ : CState σ1).chunk = st1.chunk ++ ([7]) := by
          show sa.chunk ++ _ = _
          rw [hach1]
        rcases ihI p _ _ r1 hp hXb hinf1 with
          ⟨rc2, e2, hrun2, hXc, hchk2, hL2⟩ | ⟨e2, k2, hchk2, hD2, hk2, hcn2⟩
        · refine Or.inl ⟨rc2, ([7]) ++ e2, ?_, hXc, ?_, norm1_append_loopP norm1_ans hL2⟩
          · intro g hg
            cases g with
            | zero => exact absurd hg (by omega)
            | succ g2 =>
              have hg2 : f ≤ g2 := by omega
              rw [expression, hadv2]
              simp only [bindC_ok]
              rw [hpv2]
              simp only []
              simp only [bindC_ok]
              exact hrun2 g2 hg2
          · rw [hchk2, hchkb, List.append_assoc]
        · refine Or.inr ⟨([7]) ++ e2, k2, ?_, norm1_append_doomI norm1_ans hD2, hk2, hcn2⟩
          rw [hchk2, hchkb, List.append_assoc]
      case minus =>
        simp only [] at hpre1
        rcases hXa with ⟨hAa, hnea⟩ | ⟨h1na, h2ra, hacha, hRTa, hEa⟩
        · rcases ihU sa sa2 sb hAa hnea hpre1 with
            ⟨rb2, e1, hrun1, hXb, hchk1, hN1⟩ | ⟨e1, k1, hchk1, hD1, hk1, hcn1⟩
          ·
            have hchkb : (sb).chunk = st1.chunk ++ (e1) := by rw [hchk1, hach1]
            rcases ihI p _ _ r1 hp hXb hinf1 with
              ⟨rc2, e2, hrun2, hXc, hchk2, hL2⟩ | ⟨e2, k2, hchk2, hD2, hk2, hcn2⟩
            · refine Or.inl ⟨rc2, (e1) ++ e2, ?_, hXc, ?_, norm1_append_loopP hN1 hL2⟩
              · intro g hg
                cases g with
                | zero => exact absurd hg (by omega)
                | succ g2 =>
                  have hg2 : f ≤ g2 := by omega
                  rw [expression, hadv2]
                  simp only [bindC_ok]
                  rw [hpv2]
                  simp only []
                  rw [hrun1 g2 hg2]
                  simp only [bindC_ok]
                  exact hrun2 g2 hg2
              · rw [hchk2, hchkb, List.append_assoc]
            · refine Or.inr ⟨(e1) ++ e2, k2, ?_, norm1_append_doomI hN1 hD2, hk2, hcn2⟩
              rw [hchk2, hchkb, List.append_assoc]
          · have hr1 := infix_none hcn1 hinf1
            subst hr1
            refine Or.inr ⟨e1, k1, ?_, hD1, hk1, hcn1⟩
            rw [hchk1, hach1]
        · have hsbeq := emitU_at_eof h1na (hext.eofStay _ hEa) hpre1
          subst hsbeq
          have hr1 := infix_none rfl hinf1
          subst hr1
          refine Or.inr ⟨[5], 1, ?_, doomE_five, le_rfl, rfl⟩
          show sa.chunk ++ [5] = st1.chunk ++ [5]
          rw [hach1]
      case lparen =>
        simp only [] at hpre1
        rcases hXa with ⟨hAa, hnea⟩ | ⟨h1na, h2ra, hacha, hRTa, hEa⟩
        · obtain ⟨rb2, e1, hrun1, hXb, hchk1, hN1⟩ := ihG sa sa2 sb hAa hnea hpre1
          have hchkb : (sb).chunk = st1.chunk ++ (e1) := by rw [hchk1, hach1]
          rcases ihI p _ _ r1 hp hXb hinf1 with
            ⟨rc2, e2, hrun2, hXc, hchk2, hL2⟩ | ⟨e2, k2, hchk2, hD2, hk2, hcn2⟩
          · refine Or.inl ⟨rc2, (e1) ++ e2, ?_, hXc, ?_, norm1_append_loopP hN1 hL2⟩
            · intro g hg
              cases g with
              | zero => exact absurd hg (by omega)
              | succ g2 =>
                have hg2 : f ≤ g2 := by omega
                rw [expression, hadv2]
                simp only [bindC_ok]
                rw [hpv2]
                simp only []
                rw [hrun1 g2 hg2]
                simp only [bindC_ok]
                exact hrun2 g2 hg2
            · rw [hchk2, hchkb, List.append_assoc]
          · refine Or.inr ⟨(e1) ++ e2, k2, ?_, norm1_append_doomI hN1 hD2, hk2, hcn2⟩
            rw [hchk2, hchkb, List.append_assoc]
        · cases f with
          | zero => rw [parseGroup] at hpre1; exact CRes.noConfusion hpre1
          | succ f2 =>
            rw [parseGroup, bindC_eq_ok] at hpre1
            obtain ⟨sx, hex, hcons⟩ := hpre1
            have hxx := expr_at_eof h1na (hext.eofStay _ hEa) hex
            subst hxx
            simp [consumeC] at hcons
      case func k =>
        simp only [] at hpre1
        rcases hXa with ⟨hAa, hnea⟩ | ⟨h1na, h2ra, hacha, hRTa, hEa⟩
        · obtain ⟨rb2, e1, hrun1, hXb, hchk1, hN1⟩ := ihF k sa sa2 sb hAa hnea hpre1
          have hchkb : (sb).chunk = st1.chunk ++ (e1) := by rw [hchk1, hach1]
          rcases ihI p _ _ r1 hp hXb hinf1 with
            ⟨rc2, e2, hrun2, hXc, hchk2, hL2⟩ | ⟨e2, k2, hchk2, hD2, hk2, hcn2⟩
          · refine Or.inl ⟨rc2, (e1) ++ e2, ?_, hXc, ?_, norm1_append_loopP hN1 hL2⟩
            · intro g hg
              cases g with
              | zero => exact absurd hg (by omega)
              | succ g2 =>
                have hg2 : f ≤ g2 := by omega
                rw [expression, hadv2]
                simp only [bindC_ok]
                rw [hpv2]
                simp only []
                rw [hrun1 g2 hg2]
                simp only [bindC_ok]
                exact hrun2 g2 hg2
            · rw [hchk2, hchkb, List.append_assoc]
          · refine Or.inr ⟨(e1) ++ e2, k2, ?_, norm1_append_doomI hN1 hD2, hk2, hcn2⟩
            rw [hchk2, hchkb, List.append_assoc]
        · cases f with
          | zero => rw [parseFnC] at hpre1; exact CRes.noConfusion hpre1
          | succ f2 =>
            rw [parseFnC, bindC_eq_ok] at hpre1
            obtain ⟨sx, hconsL, _⟩ := hpre1
            simp [consumeC, h1na] at hconsL
      all_goals
        simp only [] at hpre1
        exact CRes.noConfusion hpre1
    · intro p st1 st2 r1 hp hX h
      rcases hX with ⟨⟨hc, hch, hR⟩, hne⟩ | ⟨h1n, h2r, hch, hRT2, hE2⟩
      · obtain ⟨t0, ht0⟩ := Option.ne_none_iff_exists'.mp hne
        rw [infixLoop, ht0] at h
        simp only [] at h
        split at h
        case isTrue hprio =>
          rw [bindC_eq_ok] at h
          obtain ⟨sa, hadv1, h⟩ := h
          obtain ⟨sa2, hadv2, hprev1, hprev2, hach1, hach2, hXa⟩ :=
            advance_ext hext ⟨hc, hch, hR⟩ hadv1
          have hpv1 : sa.prevTok = some t0 := hprev1.trans ht0
          have hpv2 : sa2.prevTok = some t0 := hprev2.trans (hc.symm.trans ht0)
          rw [hpv1] at h
          simp only [] at h
          split at h
          case isTrue hbin =>
            rw [bindC_eq_ok] at h
            obtain ⟨sb, hpb1, hrec1⟩ := h
            rcases hXa with ⟨hAa, hnea⟩ | ⟨h1na, h2ra, hacha, hRTa, hEa⟩
            · rcases ihB t0 sa sa2 sb hAa hnea hpb1 with
                ⟨rb2, e1, hrun1, hXb, hchk1, hLb⟩ | ⟨e1, k1, hchk1, hDb, hk1, hcnb⟩
              · rcases ihI p sb rb2 r1 hp hXb hrec1 with
                  ⟨rc2, e2, hrun2, hXc, hchk2, hL2⟩ | ⟨e2, k2, hchk2, hD2, hk2, hcn2⟩
                · refine Or.inl ⟨rc2, e1 ++ e2, ?_, hXc, ?_, loopP_append_loopP hLb hL2⟩
                  · intro g hg
                    cases g with
                    | zero => exact absurd hg (by omega)
                    | succ g2 =>
                      have hg2 : f ≤ g2 := by omega
                      rw [infixLoop, (hc.symm.trans ht0 : st2.currentTok = some t0)]
                      simp only []
                      rw [if_pos hprio, hadv2]
                      simp only [bindC_ok]
                      rw [hpv2]
                      simp only []
                      rw [if_pos hbin, hrun1 g2 hg2]
                      simp only [bindC_ok]
                      exact hrun2 g2 hg2
                  · rw [hchk2, hchk1, hach1, List.append_assoc]
                · refine Or.inr ⟨e1 ++ e2, k2, ?_, loopP_append_doomI hLb hD2, hk2, hcn2⟩
                  rw [hchk2, hchk1, hach1, List.append_assoc]
              · cases f with
                | zero => rw [infixLoop] at hrec1; exact CRes.noConfusion hrec1
                | succ f2 =>
                  rw [infixLoop, hcnb] at hrec1
                  injection hrec1 with hr1
                  subst hr1
                  refine Or.inr ⟨e1, k1, ?_, doomP_to_doomI hDb, hk1, hcnb⟩
                  rw [hchk1, hach1]
            · obtain ⟨b, hb, hsb⟩ := pb_at_eof h1na (hext.eofStay _ hEa) hpb1
              subst hsb
              cases f with
              | zero => rw [infixLoop] at hrec1; exact CRes.noConfusion hrec1
              | succ f2 =>
                rw [infixLoop] at hrec1
                simp only [] at hrec1
                injection hrec1 with hr1
                subst hr1
                refine Or.inr ⟨[b], 1, ?_, doomP_to_doomI (doomP_single hb), le_rfl, rfl⟩
                show sa.chunk ++ [b] = st1.chunk ++ [b]
                rw [hach1]
          case isFalse =>
            exact CRes.noConfusion h
        case isFalse hprio =>
          injection h with hr1
          subst hr1
          refine Or.inl ⟨st2, [], ?_, Or.inl ⟨⟨hc, hch, hR⟩, hne⟩, by simp, loopP_nil⟩
          intro g hg
          cases g with
          | zero => exact absurd hg (by omega)
          | succ g2 =>
            rw [infixLoop, (hc.symm.trans ht0 : st2.currentTok = some t0)]
            simp only []
            rw [if_neg hprio]
      · rw [infixLoop, h1n] at h
        injection h with hr1
        subst hr1
        refine Or.inl ⟨st2, [], ?_, Or.inr ⟨h1n, h2r, hch, hRT2, hE2⟩, by simp, loopP_nil⟩
        intro g hg
        cases g with
        | zero => exact absurd hg (by omega)
        | succ g2 =>
          rw [infixLoop, h2r]
          simp only []
          rw [if_neg (by
            have h0 : prioVal (tokPriority Tok.rparen) = 0 := rfl
            omega)]
    · intro t st1 st2 r1 hA hne h
      rw [parseBinary, bindC_eq_ok] at h
      obtain ⟨sa, hexp1, h⟩ := h
      rcases ihE (tokPriority t).next st1 st2 sa (prio_next_pos _) hA hne hexp1 with
        ⟨r2, e, h2run, hX, hchk, hN⟩ | ⟨e, k, hchk, hD, hk, hcn⟩
      · rcases t
        case plus =>
          simp only [] at h
          injection h with hr1
          subst hr1
          refine Or.inl ⟨{r2 with chunk := r2.chunk ++ [1]}, e ++ [1], ?_, ?_, ?_,
            pb_close hN (by simp)⟩
          · intro g hg
            cases g with
            | zero => exact absurd hg (by omega)
            | succ g2 =>
              rw [parseBinary, h2run g2 (by omega)]
              simp only [bindC_ok]
          · rcases hX with ⟨⟨hc, hch2, hRr⟩, hn⟩ | ⟨h1n, h2r, hch2, hRT2, hE2⟩
            · exact Or.inl ⟨⟨hc, by simp [hch2], hRr⟩, hn⟩
            · exact Or.inr ⟨h1n, h2r, by simp [hch2], hRT2, hE2⟩
          · show sa.chunk ++ [1] = st1.chunk ++ (e ++ [1])
            rw [hchk, List.append_assoc]
        case minus =>
          simp only [] at h
          injection h with hr1
          subst hr1
          refine Or.inl ⟨{r2 with chunk := r2.chunk ++ [2]}, e ++ [2], ?_, ?_, ?_,
            pb_close hN (by simp)⟩
          · intro g hg
            cases g with
            | zero => exact absurd hg (by omega)
            | succ g2 =>
              rw [parseBinary, h2run g2 (by omega)]
              simp only [bindC_ok]
          · rcases hX with ⟨⟨hc, hch2, hRr⟩, hn⟩ | ⟨h1n, h2r, hch2, hRT2, hE2⟩
            · exact Or.inl ⟨⟨hc, by simp [hch2], hRr⟩, hn⟩
            · exact Or.inr ⟨h1n, h2r, by simp [hch2], hRT2, hE2⟩
          · show sa.chunk ++ [2] = st1.chunk ++ (e ++ [2])
            rw [hchk, List.append_assoc]
        case mult =>
          simp only [] at h
          injection h with hr1
          subst hr1
          refine Or.inl ⟨{r2 with chunk := r2.chunk ++ [3]}, e ++ [3], ?_, ?_, ?_,
            pb_close hN (by simp)⟩
          · intro g hg
            cases g with
            | zero => exact absurd hg (by omega)
            | succ g2 =>
              rw [parseBinary, h2run g2 (by omega)]
              simp only [bindC_ok]
          · rcases hX with ⟨⟨hc, hch2, hRr⟩, hn⟩ | ⟨h1n, h2r, hch2, hRT2, hE2⟩
            · exact Or.inl ⟨⟨hc, by simp [hch2], hRr⟩, hn⟩
            · exact Or.inr ⟨h1n, h2r, by simp [hch2], hRT2, hE2⟩
          · show sa.chunk ++ [3] = st1.chunk ++ (e ++ [3])
            rw [hchk, List.append_assoc]
        case div =>
          simp only [] at h
          injection h with hr1
          subst hr1
          refine Or.inl ⟨{r2 with chunk := r2.chunk ++ [4]}, e ++ [4], ?_, ?_, ?_,
            pb_close hN (by simp)⟩
          · intro g hg
            cases g with
            | zero => exact absurd hg (by omega)
            | succ g2 =>
              rw [parseBinary, h2run g2 (by omega)]
              simp only [bindC_ok]
          · rcases hX with ⟨⟨hc, hch2, hRr⟩, hn⟩ | ⟨h1n, h2r, hch2, hRT2, hE2⟩
            · exact Or.inl ⟨⟨hc, by simp [hch2], hRr⟩, hn⟩
            · exact Or.inr ⟨h1n, h2r, by simp [hch2], hRT2, hE2⟩
          · show sa.chunk ++ [4] = st1.chunk ++ (e ++ [4])
            rw [hchk, List.append_assoc]
        all_goals
          simp only [] at h
          exact CRes.noConfusion h
      · rcases t
        case plus =>
          simp only [] at h
          injection h with hr1
          subst hr1
          refine Or.inr ⟨e ++ [1], k, ?_, doomE_pb hk hD (by simp), hk, hcn⟩
          show sa.chunk ++ [1] = st1.chunk ++ (e ++ [1])
          rw [hchk, List.append_assoc]
        case minus =>
          simp only [] at h
          injection h with hr1
          subst hr1
          refine Or.inr ⟨e ++ [2], k, ?_, doomE_pb hk hD (by simp), hk, hcn⟩
          show sa.chunk ++ [2] = st1.chunk ++ (e ++ [2])
          rw [hchk, List.append_assoc]
        case mult =>
          simp only [] at h
          injection h with hr1
          subst hr1
          refine Or.inr ⟨e ++ [3], k, ?_, doomE_pb hk hD (by simp), hk, hcn⟩
          show sa.chunk ++ [3] = st1.chunk ++ (e ++ [3])
          rw [hchk, List.append_assoc]
        case div =>
          simp only [] at h
          injection h with hr1
          subst hr1
          refine Or.inr ⟨e ++ [4], k, ?_, doomE_pb hk hD (by simp), hk, hcn⟩
          show sa.chunk ++ [4] = st1.chunk ++ (e ++ [4])
          rw [hchk, List.append_assoc]
        all_goals
          simp only [] at h
          exact CRes.noConfusion h
    · intro st1 st2 r1 hA hne h
      rw [parseGroup, bindC_eq_ok] at h
      obtain ⟨sa, hexp1, hcons⟩ := h
      rcases ihE .pterm st1 st2 sa (by decide) hA hne hexp1 with
        ⟨r2, e, h2run, hX1, hchk, hN⟩ | ⟨e, k, hchk, hD, hk, hcn⟩
      · rcases hX1 with ⟨⟨hc, hch2, hRr⟩, hn⟩ | ⟨h1n2, h2r2, hch2, hRT3, hE3⟩
        · unfold consumeC at hcons
          split at hcons
          case isFalse => exact CRes.noConfusion hcons
          case isTrue hcc =>
            have hcr : r2.currentTok = some Tok.rparen := hc.symm.trans hcc
            obtain ⟨rb2, hadv2, _, _, hbch1, hbch2, hXb⟩ :=
              advance_ext hext ⟨hc, hch2, hRr⟩ hcons
            refine ⟨rb2, e, ?_, hXb, ?_, hN⟩
            · intro g hg
              cases g with
              | zero => exact absurd hg (by omega)
              | succ g2 =>
                have hg2 : f ≤ g2 := by omega
                rw [parseGroup, h2run g2 hg2]
                simp only [bindC_ok]
                unfold consumeC
                rw [if_pos hcr]
                exact hadv2
            · rw [hbch1, hchk]
        · simp [consumeC, h1n2] at hcons
      · simp [consumeC, hcn] at hcons

    · intro n st1 st2 r1 hX h
      cases n with
      | zero =>
        rw [parseFnArgs] at h
        injection h with hr1
        subst hr1
        refine ⟨st2, [], ?_, hX, by simp, normK_nil⟩
        intro g hg
        cases g with
        | zero => exact absurd hg (by omega)
        | succ g2 => rw [parseFnArgs]
      | succ n2 =>
        rw [parseFnArgs, bindC_eq_ok] at h
        obtain ⟨sa, hexp1, h⟩ := h
        rw [bindC_eq_ok] at h
        obtain ⟨sb, hcons1, hrec1⟩ := h
        rcases hX with ⟨hA, hne⟩ | ⟨h1n, h2r, hch, hRT2, hE2⟩
        · rcases ihE .pterm st1 st2 sa (by decide) hA hne hexp1 with
            ⟨r2, e, h2run, hX1, hchk, hN⟩ | ⟨e, k, hchk, hD, hk, hcn⟩
          · rcases hX1 with ⟨⟨hc, hch2, hRr⟩, hn⟩ | ⟨h1n2, h2r2, hch2, hRT3, hE3⟩
            · unfold consumeC at hcons1
              split at hcons1
              case isFalse => exact CRes.noConfusion hcons1
              case isTrue hcc =>
                have hcm : r2.currentTok = some Tok.comma := hc.symm.trans hcc
                obtain ⟨rb2, hadv2, _, _, hbch1, hbch2, hXb⟩ :=
                  advance_ext hext ⟨hc, hch2, hRr⟩ hcons1
                obtain ⟨rc2, e2, h3run, hXc, hchk2, hN2⟩ := ihA n2 sb rb2 r1 hXb hrec1
                refine ⟨rc2, e ++ e2, ?_, hXc, ?_, normK_step hN hN2⟩
                · intro g hg
                  cases g with
                  | zero => exact absurd hg (by omega)
                  | succ g2 =>
                    have hg2 : f ≤ g2 := by omega
                    rw [parseFnArgs, h2run g2 hg2]
                    simp only [bindC_ok]
                    unfold consumeC
                    rw [if_pos hcm, hadv2]
                    simp only [bindC_ok]
                    exact h3run g2 hg2
                · rw [hchk2, hbch1, hchk, List.append_assoc]
            · simp [consumeC, h1n2] at hcons1
          · simp [consumeC, hcn] at hcons1
        · have hsaeq := expr_at_eof h1n (hext.eofStay _ hE2) hexp1
          subst hsaeq
          simp [consumeC] at hcons1

    · intro k st1 st2 r1 hA hne h
      rw [parseFnC, bindC_eq_ok] at h
      obtain ⟨sa, hconsL, h⟩ := h
      rw [bindC_eq_ok] at h
      obtain ⟨sb, hargs, h⟩ := h
      rw [bindC_eq_ok] at h
      obtain ⟨sc', hconsR, h⟩ := h
      injection h with hr1
      subst hr1
      unfold consumeC at hconsL
      split at hconsL
      case isFalse => exact CRes.noConfusion hconsL
      case isTrue hcc =>
        have hcl : st2.currentTok = some Tok.lparen := hA.1.symm.trans hcc
        obtain ⟨sa2, hadv2, _, _, hach1, hach2, hXa⟩ := advance_ext hext hA hconsL
        rw [if_pos (arity_pos k), bindC_eq_ok] at hargs
        obtain ⟨sm, hpfa1, hexp1⟩ := hargs
        obtain ⟨rm2, e1, hrun1, hXm, hchk1, hK⟩ := ihA (k.arity - 1) sa sa2 sm hXa hpfa1
        rcases hXm with ⟨hAm, hnem⟩ | ⟨h1nm, h2rm, hchm, hRTm, hEm⟩
        · rcases ihE .pterm sm rm2 sb (by decide) hAm hnem hexp1 with
            ⟨re2, e2, hrun2, hXe, hchk2, hN⟩ | ⟨e2, k2, hchk2, hD2, hk2, hcn2⟩
          · rcases hXe with ⟨⟨hce, hche, hRe⟩, hnee⟩ | ⟨h1ne, h2re, hche, hRTe, hEe⟩
            · unfold consumeC at hconsR
              split at hconsR
              case isFalse => exact CRes.noConfusion hconsR
              case isTrue hcc2 =>
                have hcr : re2.currentTok = some Tok.rparen := hce.symm.trans hcc2
                obtain ⟨rf2, hadv4, _, _, hfch1, hfch2, hXf⟩ :=
                  advance_ext hext ⟨hce, hche, hRe⟩ hconsR
                have harK : NormK (e1 ++ e2) k.arity := by
                  rw [show k.arity = (k.arity - 1) + 1 from (by
                    have := arity_pos k
                    omega)]
                  exact normK_append_norm1 hK hN
                refine ⟨{rf2 with chunk := rf2.chunk ++ [6, funcId k]},
                  (e1 ++ e2) ++ [6, funcId k], ?_, ?_, ?_, fn_close harK⟩
                · intro g hg
                  cases g with
                  | zero => exact absurd hg (by omega)
                  | succ g2 =>
                    have hg2 : f ≤ g2 := by omega
                    rw [parseFnC]
                    unfold consumeC
                    rw [if_pos hcl, hadv2]
                    simp only [bindC_ok]
                    rw [if_pos (arity_pos k), hrun1 g2 hg2]
                    simp only [bindC_ok]
                    rw [hrun2 g2 hg2]
                    simp only [bindC_ok]
                    rw [if_pos hcr, hadv4]
                    simp only [bindC_ok]
                · rcases hXf with ⟨⟨hcf, hchf, hRf⟩, hnf⟩ | ⟨h1nf, h2rf, hchf, hRTf, hEf⟩
                  · exact Or.inl ⟨⟨hcf, by simp [hchf], hRf⟩, hnf⟩
                  · exact Or.inr ⟨h1nf, h2rf, by simp [hchf], hRTf, hEf⟩
                · show sc'.chunk ++ [6, funcId k] = st1.chunk ++ ((e1 ++ e2) ++ [6, funcId k])
                  rw [hfch1, hchk2, hchk1, hach1]
                  simp [List.append_assoc]
            · simp [consumeC, h1ne] at hconsR
          · simp [consumeC, hcn2] at hconsR
        · have hsbeq := expr_at_eof h1nm (hext.eofStay _ hEm) hexp1
          subst hsbeq
          simp [consumeC] at hconsR
    · intro st1 st2 r1 hA hne h
      rw [emitUnary, bindC_eq_ok] at h
      obtain ⟨sa, hexp1, h⟩ := h
      rcases ihE .punary st1 st2 sa (by decide) hA hne hexp1 with
        ⟨r2, e, h2run, hX, hchk, hN⟩ | ⟨e, k, hchk, hD, hk, hcn⟩
      · left
        injection h with hr1
        subst hr1
        refine ⟨{r2 with chunk := r2.chunk ++ [5]}, e ++ [5], ?_, ?_, ?_, norm1_append5 hN⟩
        · intro g hg
          cases g with
          | zero => exact absurd hg (by omega)
          | succ g2 =>
            rw [emitUnary, h2run g2 (by omega), bindC_ok]
        · rcases hX with ⟨⟨hc, hch2, hRr⟩, hn⟩ | ⟨h1n, h2r, hch2, hRT2, hE2⟩
          · exact Or.inl ⟨⟨hc, by simp [hch2], hRr⟩, hn⟩
          · exact Or.inr ⟨h1n, h2r, by simp [hch2], hRT2, hE2⟩
        · show sa.chunk ++ [5] = st1.chunk ++ (e ++ [5])
          rw [hchk, List.append_assoc]
      · right
        injection h with hr1
        subst hr1
        refine ⟨e ++ [5], k, ?_, doomE_append5 hk hD, hk, hcn⟩
        show sa.chunk ++ [5] = st1.chunk ++ (e ++ [5])
        rw [hchk, List.append_assoc]

lemma lexScan_core (s : LexState) :
    lexScan s = lexScanCore s.src (s.idx + skipWsCount (s.src.drop s.idx)) := rfl

lemma skipWs_le : ∀ l : List Nat, skipWsCount l ≤ l.length := by
  intro l
  induction l with
  | nil => exact le_rfl
  | cons c r ih =>
    rw [skipWsCount]
    split_ifs
    · simpa using ih
    · simp

lemma skipWs_append_nonws {c : Nat} (hc : isWsByte c = false) :
    ∀ l : List Nat, skipWsCount (l ++ [c]) = skipWsCount l := by
  intro l
  induction l with
  | nil => simp [skipWsCount, hc]
  | cons b r ih =>
    simp only [List.cons_append, skipWsCount]
    split_ifs
    · exact congrArg (fun z => z + 1) ih
    · rfl

lemma drop_wrap {src : List Nat} {i : Nat} (h : i ≤ src.length) :
    (wrapParens src).drop (i + 1) = src.drop i ++ [41] := by
  show (src ++ [41]).drop i = _
  rw [List.drop_append_of_le_length h]

lemma get_wrap {src : List Nat} {i : Nat} (h : i < src.length)
    (h2 : i + 1 < (wrapParens src).length) :
    (wrapParens src).get ⟨i + 1, h2⟩ = src.get ⟨i, h⟩ := by
  simp only [wrapParens, List.cons_append, List.get_eq_getElem, List.getElem_cons_succ]
  exact List.getElem_append_left h

lemma wrap_length (src : List Nat) : (wrapParens src).length = src.length + 2 := by
  simp [wrapParens]

lemma get_wrap_end {src : List Nat} (h : src.length + 1 < (wrapParens src).length) :
    (wrapParens src).get ⟨src.length + 1, h⟩ = 41 := by
  simp only [wrapParens, List.cons_append, List.get_eq_getElem, List.getElem_cons_succ]
  rw [List.getElem_append_right (by omega)]
  simp

lemma numAux_good_le : ∀ (a : List Nat) (dot expo : Bool) (prev : Option Nat) (cnt k : Nat),
    numAux a dot expo prev cnt = .good k → k ≤ cnt + a.length := by
  intro a
  induction a with
  | nil =>
    intro dot expo prev cnt k h
    rw [numAux.eq_def] at h
    simp only [] at h
    injection h with h2
    omega
  | cons c r ih =>
    intro dot expo prev cnt k h
    rw [numAux.eq_def] at h
    simp only [] at h
    split_ifs at h <;>
      first
        | (exact NumScan.noConfusion h)
        | (have h2 := ih _ _ _ _ _ h
           simp only [List.length_cons]
           omega)
        | (rcases prev with _ | p <;> simp only [] at h <;>
            first
              | (exact NumScan.noConfusion h)
              | (split_ifs at h <;>
                  first
                    | (exact NumScan.noConfusion h)
                    | (injection h with h2; simp only [List.length_cons]; omega)
                    | (have h2 := ih _ _ _ _ _ h
                       simp only [List.length_cons]
                       omega))
              | (injection h with h2; simp only [List.length_cons]; omega)
              | (have h2 := ih _ _ _ _ _ h
                 simp only [List.length_cons]
                 omega))

lemma lastD_eq : ∀ (l : List Nat) (p : Option Nat),
    lastD l p = match l.getLast? with | some x => some x | none => p := by
  intro l
  induction l with
  | nil => intro p; rfl
  | cons c r ih =>
    intro p
    rw [lastD, ih]
    cases r with
    | nil => rfl
    | cons b r2 =>
      cases hr : (b :: r2).getLast? with
      | none => simp at hr
      | some x => rw [List.getLast?_cons_cons, hr]

lemma getLast?_drop_eq : ∀ (j : Nat) (src : List Nat), j < src.length →
    (src.drop j).getLast? = src.getLast? := by
  intro j
  induction j with
  | zero => intro src h; rfl
  | succ j2 ih =>
    intro src h
    cases src with
    | nil => simp at h
    | cons c r =>
      rw [List.drop_succ_cons, ih r (by simpa using h)]
      cases r with
      | nil => simp at h
      | cons b r2 => rw [List.getLast?_cons_cons]

lemma numAux_append41 : ∀ (a : List Nat) (dot expo : Bool) (prev : Option Nat) (cnt : Nat),
    numAux (a ++ [41]) dot expo prev cnt =
      match numAux a dot expo prev cnt with
      | .bad c k => .bad c k
      | .good k =>
        if k = cnt + a.length then
          match lastD a prev with
          | some p => if p = 101 || p = 46 then .bad 41 k else .good k
          | none => .good k
        else .good k := by
  intro a
  induction a with
  | nil =>
    intro dot expo prev cnt
    rw [List.nil_append, numAux.eq_def]
    cases prev <;> simp [numAux, lastD, isDigit]
  | cons c r ih =>
    intro dot expo prev cnt
    simp only [List.cons_append]
    rw [numAux.eq_def]
    conv_rhs => rw [numAux.eq_def]
    simp only []
    rcases prev with _ | p <;>
      simp only [lastD] <;>
      split_ifs <;>
      first
        | rfl
        | (simp only [List.length_cons]
           rw [if_neg (by omega)])
        | (simp only [List.length_cons]
           have hadd : cnt + (r.length + 1) = cnt + 1 + r.length := by omega
           simp only [hadd]
           exact ih _ _ _ _)

lemma peekWord_some_inv {l : List Nat} {j n : Nat} {w : List Nat}
    (h : peekWord ⟨l, j⟩ n = some w) : j + n ≤ l.length ∧ w = (l.drop j).take n := by
  unfold peekWord at h
  split at h
  · refine ⟨by assumption, ?_⟩
    injection h with h2
    exact h2.symm
  · exact Option.noConfusion h

lemma peek_wrap {src : List Nat} {j n : Nat} (hle : j ≤ src.length)
    (hbound : j + n ≤ src.length) :
    peekWord ⟨wrapParens src, j + 1⟩ n = some ((src.drop j).take n) := by
  unfold peekWord
  rw [if_pos (by simp only [wrap_length]; omega)]
  show some (((wrapParens src).drop (j + 1)).take n) = _
  rw [drop_wrap hle, List.take_append_of_le_length (by
    rw [List.length_drop]
    omega)]

lemma consumeNumber_out {s : LexState} {s2 : LexState} {out : ScanOut}
    (h : consumeNumber s = some (s2, out)) :
    (∃ ds, out = .tok (.number ds)) ∨ (∃ cb, out = .lexErr (.invalidNumberFormat cb)) := by
  unfold consumeNumber at h
  split at h <;>
    simp only [Option.some.injEq, Prod.mk.injEq] at h <;>
    obtain ⟨h1, h2⟩ := h
  · exact Or.inr ⟨_, h2.symm⟩
  · exact Or.inl ⟨_, h2.symm⟩

lemma some_pair_inj {α β : Type} {a c : α} {b d : β}
    (h : some (a, b) = some (c, d)) : a = c ∧ b = d := by
  injection h with h2
  cases h2
  exact ⟨rfl, rfl⟩

lemma lexParseFn_out {s : LexState} {c : Nat} {s2 : LexState} {out : ScanOut}
    (h : lexParseFn s c = some (s2, out)) :
    (∃ k, out = .tok (.func k)) ∨ out = .lexErr (.invalidChar c) := by
  unfold lexParseFn at h
  split_ifs at h
  · split at h
    · exact Option.noConfusion h
    · split at h
      · exact Or.inl ⟨_, (some_pair_inj h).2.symm⟩
      · split at h
        · exact Option.noConfusion h
        · split at h
          · exact Or.inl ⟨_, (some_pair_inj h).2.symm⟩
          · exact Or.inr (some_pair_inj h).2.symm
  · split at h
    · exact Option.noConfusion h
    · split at h
      · exact Or.inl ⟨_, (some_pair_inj h).2.symm⟩
      · exact Or.inr (some_pair_inj h).2.symm
  · split at h
    · exact Option.noConfusion h
    · split at h
      · exact Or.inl ⟨_, (some_pair_inj h).2.symm⟩
      · exact Or.inr (some_pair_inj h).2.symm
  · split at h
    · exact Option.noConfusion h
    · split at h
      · exact Or.inl ⟨_, (some_pair_inj h).2.symm⟩
      · exact Or.inr (some_pair_inj h).2.symm
  · exact Or.inr (some_pair_inj h).2.symm

lemma core_past_end {l : List Nat} {j : Nat} (h : l.length ≤ j) :
    lexScanCore l j = some (⟨l, j⟩, .lexErr .eofE) := by
  rw [lexScanCore, dif_neg (by omega)]

lemma lexScan_past_end {s : LexState} (h : s.src.length ≤ s.idx) :
    lexScan s = some (s, .lexErr .eofE) := by
  rw [lexScan_core s, List.drop_eq_nil_of_le h]
  show lexScanCore s.src (s.idx + 0) = _
  rw [core_past_end (by omega)]
  rfl

lemma core_eofE {l : List Nat} {j : Nat} {s2 : LexState}
    (h : lexScanCore l j = some (s2, .lexErr .eofE)) :
    s2 = ⟨l, j⟩ ∧ l.length ≤ j := by
  rcases Nat.lt_or_ge j l.length with hj | hj
  case inr =>
    rw [core_past_end hj] at h
    obtain ⟨h1, _⟩ := some_pair_inj h
    exact ⟨h1.symm, hj⟩
  case inl =>
    rw [lexScanCore, dif_pos hj] at h
    simp only [] at h
    exfalso
    split_ifs at h
    · rcases consumeNumber_out h with ⟨ds, hds⟩ | ⟨cb, hcb⟩
      · exact ScanOut.noConfusion hds
      · exact LexError.noConfusion (ScanOut.lexErr.inj hcb)
    · exact ScanOut.noConfusion (some_pair_inj h).2
    · exact ScanOut.noConfusion (some_pair_inj h).2
    · exact ScanOut.noConfusion (some_pair_inj h).2
    · exact ScanOut.noConfusion (some_pair_inj h).2
    · exact ScanOut.noConfusion (some_pair_inj h).2
    · exact ScanOut.noConfusion (some_pair_inj h).2
    · exact ScanOut.noConfusion (some_pair_inj h).2
    · split at h
      · exact Option.noConfusion h
      · split at h
        · exact ScanOut.noConfusion (some_pair_inj h).2
        · rcases lexParseFn_out h with ⟨k, hk⟩ | hc
          · exact ScanOut.noConfusion hk
          · exact LexError.noConfusion (ScanOut.lexErr.inj hc)
    · rcases lexParseFn_out h with ⟨k, hk⟩ | hc
      · exact ScanOut.noConfusion hk
      · exact LexError.noConfusion (ScanOut.lexErr.inj hc)

lemma core_wrap_end (src : List Nat) :
    lexScanCore (wrapParens src) (src.length + 1) =
      some (⟨wrapParens src, src.length + 2⟩, .tok .rparen) := by
  have hj : src.length + 1 < (wrapParens src).length := by rw [wrap_length]; omega
  rw [lexScanCore, dif_pos hj]
  simp only [get_wrap_end hj]
  norm_num [isDigit]

lemma consumeNumber_wrap {src : List Nat} {j cnt : Nat}
    (h46 : src.getLast? ≠ some 46) (h101 : src.getLast? ≠ some 101)
    (hj : j < src.length)
    (hg : numAux (src.drop j) false false none 0 = .good cnt) :
    consumeNumber ⟨wrapParens src, j + 1⟩ =
      some (⟨wrapParens src, (j + cnt) + 1⟩, .tok (.number ((src.drop j).take cnt))) := by
  have hle : j ≤ src.length := by omega
  have hcnt : cnt ≤ (src.drop j).length := by
    have := numAux_good_le (src.drop j) false false none 0 cnt hg
    omega
  unfold consumeNumber
  simp only []
  rw [drop_wrap hle, numAux_append41, hg]
  simp only []
  have hidx : j + 1 + cnt = (j + cnt) + 1 := by omega
  have htake : ((src.drop j ++ [41]).take cnt) = (src.drop j).take cnt :=
    List.take_append_of_le_length hcnt
  by_cases hfull : cnt = 0 + (src.drop j).length
  · rw [if_pos hfull]
    have hlast : lastD (src.drop j) none = src.getLast? := by
      rw [lastD_eq, getLast?_drop_eq j src hj]
      cases src.getLast? <;> rfl
    cases hsl : src.getLast? with
    | none =>
      exfalso
      have : src = [] := List.getLast?_eq_none.mp hsl
      rw [this] at hj
      simp at hj
    | some x =>
      rw [hlast, hsl]
      simp only []
      rw [if_neg (by
        simp only [Bool.or_eq_true, decide_eq_true_eq]
        rintro (rfl | rfl)
        · exact h101 hsl
        · exact h46 hsl)]
      simp only []
      rw [hidx, htake]
  · rw [if_neg hfull]
    simp only []
    rw [hidx, htake]

lemma core_wrap_tok {src : List Nat} (h46 : src.getLast? ≠ some 46)
    (h101 : src.getLast? ≠ some 101) {j : Nat} (hle : j ≤ src.length)
    {s2 : LexState} {tok : Tok}
    (h : lexScanCore src j = some (s2, .tok tok)) :
    ∃ j2, s2 = ⟨src, j2⟩ ∧ j2 ≤ src.length ∧
      lexScanCore (wrapParens src) (j + 1) = some (⟨wrapParens src, j2 + 1⟩, .tok tok) := by
  rcases Nat.lt_or_ge j src.length with hj | hj
  case inr =>
    rw [core_past_end hj] at h
    exact ScanOut.noConfusion (some_pair_inj h).2
  case inl =>
    have hj2 : j + 1 < (wrapParens src).length := by rw [wrap_length]; omega
    have hget2 := get_wrap hj hj2
    rw [lexScanCore, dif_pos hj] at h
    simp only [] at h
    split_ifs at h with hdig h40 h41 h43 h45 h42 h47 h44 h97
    · unfold consumeNumber at h
      split at h
      next cb cnt heq => exact ScanOut.noConfusion (some_pair_inj h).2
      next cnt heq =>
        obtain ⟨hs2, htok⟩ := some_pair_inj h
        have hcnt : cnt ≤ (src.drop j).length := by
          have := numAux_good_le (src.drop j) false false none 0 cnt heq
          omega
        refine ⟨j + cnt, hs2.symm, by (rw [List.length_drop] at hcnt; omega), ?_⟩
        rw [lexScanCore, dif_pos hj2]
        simp only []
        rw [hget2, if_pos hdig, consumeNumber_wrap h46 h101 hj heq, ← htok]
    · obtain ⟨hs2, htok⟩ := some_pair_inj h
      refine ⟨j + 1, hs2.symm, by omega, ?_⟩
      rw [lexScanCore, dif_pos hj2]
      simp only []
      rw [hget2, if_neg hdig, if_pos h40, ← htok]
    · obtain ⟨hs2, htok⟩ := some_pair_inj h
      refine ⟨j + 1, hs2.symm, by omega, ?_⟩
      rw [lexScanCore, dif_pos hj2]
      simp only []
      rw [hget2, if_neg hdig, if_neg h40, if_pos h41, ← htok]
    · obtain ⟨hs2, htok⟩ := some_pair_inj h
      refine ⟨j + 1, hs2.symm, by omega, ?_⟩
      rw [lexScanCore, dif_pos hj2]
      simp only []
      rw [hget2, if_neg hdig, if_neg h40, if_neg h41, if_pos h43, ← htok]
    · obtain ⟨hs2, htok⟩ := some_pair_inj h
      refine ⟨j + 1, hs2.symm, by omega, ?_⟩
      rw [lexScanCore, dif_pos hj2]
      simp only []
      rw [hget2, if_neg hdig, if_neg h40, if_neg h41, if_neg h43, if_pos h45, ← htok]
    · obtain ⟨hs2, htok⟩ := some_pair_inj h
      refine ⟨j + 1, hs2.symm, by omega, ?_⟩
      rw [lexScanCore, dif_pos hj2]
      simp only []
      rw [hget2, if_neg hdig, if_neg h40, if_neg h41, if_neg h43, if_neg h45, if_pos h42, ← htok]
    · obtain ⟨hs2, htok⟩ := some_pair_inj h
      refine ⟨j + 1, hs2.symm, by omega, ?_⟩
      rw [lexScanCore, dif_pos hj2]
      simp only []
      rw [hget2, if_neg hdig, if_neg h40, if_neg h41, if_neg h43, if_neg h45, if_neg h42, if_pos h47, ← htok]
    · obtain ⟨hs2, htok⟩ := some_pair_inj h
      refine ⟨j + 1, hs2.symm, by omega, ?_⟩
      rw [lexScanCore, dif_pos hj2]
      simp only []
      rw [hget2, if_neg hdig, if_neg h40, if_neg h41, if_neg h43, if_neg h45, if_neg h42, if_neg h47, if_pos h44, ← htok]
    · split at h
      next => exact Option.noConfusion h
      next w heqp =>
        obtain ⟨hb3, hw⟩ := peekWord_some_inv heqp
        split_ifs at h with hans
        · obtain ⟨hs2, htok⟩ := some_pair_inj h
          refine ⟨j + 3, hs2.symm, by omega, ?_⟩
          rw [lexScanCore, dif_pos hj2]
          simp only []
          rw [hget2, if_neg hdig, if_neg h40, if_neg h41, if_neg h43, if_neg h45, if_neg h42, if_neg h47, if_neg h44, if_pos h97, peek_wrap hle hb3, ← hw]
          simp only []
          rw [if_pos hans, ← htok]
        · rw [h97] at h
          simp only [lexParseFn] at h
          norm_num at h
          exact ScanOut.noConfusion h.2
    · unfold lexParseFn at h
      split_ifs at h with hc115 hc99 hc108 hc112
      · split at h
        next => exact Option.noConfusion h
        next w3 heq3 =>
          obtain ⟨hb3, hw3⟩ := peekWord_some_inv heq3
          split_ifs at h with hsin
          · obtain ⟨hs2, htok⟩ := some_pair_inj h
            refine ⟨j + 3, hs2.symm, by omega, ?_⟩
            rw [lexScanCore, dif_pos hj2]
            simp only []
            rw [hget2, if_neg hdig, if_neg h40, if_neg h41, if_neg h43, if_neg h45, if_neg h42, if_neg h47, if_neg h44, if_neg h97]
            unfold lexParseFn
            rw [if_pos hc115, peek_wrap hle hb3, ← hw3]
            simp only []
            rw [if_pos hsin, ← htok]
          · split at h
            next => exact Option.noConfusion h
            next w4 heq4 =>
              obtain ⟨hb4, hw4⟩ := peekWord_some_inv heq4
              split_ifs at h with hsq
              · obtain ⟨hs2, htok⟩ := some_pair_inj h
                refine ⟨j + 4, hs2.symm, by omega, ?_⟩
                rw [lexScanCore, dif_pos hj2]
                simp only []
                rw [hget2, if_neg hdig, if_neg h40, if_neg h41, if_neg h43, if_neg h45, if_neg h42, if_neg h47, if_neg h44, if_neg h97]
                unfold lexParseFn
                rw [if_pos hc115, peek_wrap hle hb3, ← hw3]
                simp only []
                rw [if_neg hsin, peek_wrap hle hb4, ← hw4]
                simp only []
                rw [if_pos hsq, ← htok]
              · exact ScanOut.noConfusion (some_pair_inj h).2
      · split at h
        next => exact Option.noConfusion h
        next w3 heq3 =>
          obtain ⟨hb3, hw3⟩ := peekWord_some_inv heq3
          split_ifs at h with hkw
          · obtain ⟨hs2, htok⟩ := some_pair_inj h
            refine ⟨j + 3, hs2.symm, by omega, ?_⟩
            rw [lexScanCore, dif_pos hj2]
            simp only []
            rw [hget2, if_neg hdig, if_neg h40, if_neg h41, if_neg h43, if_neg h45, if_neg h42, if_neg h47, if_neg h44, if_neg h97]
            unfold lexParseFn
            rw [if_neg hc115, if_pos hc99, peek_wrap hle hb3, ← hw3]
            simp only []
            rw [if_pos hkw, ← htok]
          · exact ScanOut.noConfusion (some_pair_inj h).2
      · split at h
        next => exact Option.noConfusion h
        next w3 heq3 =>
          obtain ⟨hb3, hw3⟩ := peekWord_some_inv heq3
          split_ifs at h with hkw
          · obtain ⟨hs2, htok⟩ := some_pair_inj h
            refine ⟨j + 3, hs2.symm, by omega, ?_⟩
            rw [lexScanCore, dif_pos hj2]
            simp only []
            rw [hget2, if_neg hdig, if_neg h40, if_neg h41, if_neg h43, if_neg h45, if_neg h42, if_neg h47, if_neg h44, if_neg h97]
            unfold lexParseFn
            rw [if_neg hc115, if_neg hc99, if_pos hc108, peek_wrap hle hb3, ← hw3]
            simp only []
            rw [if_pos hkw, ← htok]
          · exact ScanOut.noConfusion (some_pair_inj h).2
      · split at h
        next => exact Option.noConfusion h
        next w3 heq3 =>
          obtain ⟨hb3, hw3⟩ := peekWord_some_inv heq3
          split_ifs at h with hkw
          · obtain ⟨hs2, htok⟩ := some_pair_inj h
            refine ⟨j + 3, hs2.symm, by omega, ?_⟩
            rw [lexScanCore, dif_pos hj2]
            simp only []
            rw [hget2, if_neg hdig, if_neg h40, if_neg h41, if_neg h43, if_neg h45, if_neg h42, if_neg h47, if_neg h44, if_neg h97]
            unfold lexParseFn
            rw [if_neg hc115, if_neg hc99, if_neg hc108, if_pos hc112, peek_wrap hle hb3, ← hw3]
            simp only []
            rw [if_pos hkw, ← htok]
          · exact ScanOut.noConfusion (some_pair_inj h).2
      · exact ScanOut.noConfusion (some_pair_inj h).2

lemma scanExt_wrap (src : List Nat) (h46 : src.getLast? ≠ some 46)
    (h101 : src.getLast? ≠ some 101) :
    ScanExt LexState LexState lexScan lexScan (Rrel src) (RTrel src) (E1rel src) := by
  constructor
  · intro s t s2 tok hR hscan
    obtain ⟨hs, ht, hidx, hle⟩ := hR
    rw [lexScan_core, hs] at hscan
    have hskip := skipWs_le (src.drop s.idx)
    rw [List.length_drop] at hskip
    have hlej : s.idx + skipWsCount (src.drop s.idx) ≤ src.length := by omega
    obtain ⟨j2, hs2, hj2le, hcore2⟩ := core_wrap_tok h46 h101 hlej hscan
    subst hs2
    refine ⟨⟨wrapParens src, j2 + 1⟩, ?_, rfl, rfl, rfl, hj2le⟩
    rw [lexScan_core, ht, hidx, drop_wrap hle, skipWs_append_nonws (by decide)]
    have hidx2 : s.idx + 1 + skipWsCount (src.drop s.idx) =
        (s.idx + skipWsCount (src.drop s.idx)) + 1 := by omega
    rw [hidx2]
    exact hcore2
  · intro s t s2 hR hscan
    obtain ⟨hs, ht, hidx, hle⟩ := hR
    rw [lexScan_core, hs] at hscan
    have hskip := skipWs_le (src.drop s.idx)
    rw [List.length_drop] at hskip
    obtain ⟨hs2, hlen⟩ := core_eofE hscan
    subst hs2
    refine ⟨⟨rfl, hlen⟩, ⟨wrapParens src, src.length + 2⟩, ?_, rfl, by rw [wrap_length]⟩
    rw [lexScan_core, ht, hidx, drop_wrap hle, skipWs_append_nonws (by decide)]
    have hjeq : s.idx + 1 + skipWsCount (src.drop s.idx) = src.length + 1 := by omega
    rw [hjeq]
    exact core_wrap_end src
  · intro s hE
    exact lexScan_past_end (by rw [hE.1]; exact hE.2)
  · intro t hRT
    exact lexScan_past_end (by rw [hRT.1]; exact hRT.2)

lemma advanceC_ok_cases {σ : Type} (sc : Scanner σ) (st st2 : CState σ)
    (h : advanceC sc st = .okOut st2) :
    (∃ s2 t, sc st.scst = some (s2, .tok t) ∧
       st2 = ⟨st.currentTok, some t, st.chunk, s2⟩) ∨
    (∃ s2, sc st.scst = some (s2, .lexErr .eofE) ∧
       st2 = ⟨st.currentTok, none, st.chunk, s2⟩) := by
  unfold advanceC at h
  repeat' split at h
  · exact CRes.noConfusion h
  · rename_i s2 t heq
    injection h with h2
    exact Or.inl ⟨s2, t, heq, h2.symm⟩
  · rename_i s2 e heq he
    subst he
    injection h with h2
    exact Or.inr ⟨s2, heq, h2.symm⟩
  · exact CRes.noConfusion h

lemma lexScan_wrap_zero (src : List Nat) :
    lexScan ⟨wrapParens src, 0⟩ = some (⟨wrapParens src, 1⟩, .tok .lparen) := by
  rw [lexScan_core]
  have hws : skipWsCount (wrapParens src) = 0 := by
    show skipWsCount ((40 :: src) ++ [41]) = 0
    rw [List.cons_append, skipWsCount]
    norm_num [isWsByte]
  show lexScanCore (wrapParens src) (0 + skipWsCount ((wrapParens src).drop 0)) = _
  rw [List.drop_zero, hws]
  have hj : (0 : Nat) < (wrapParens src).length := by rw [wrap_length]; omega
  rw [lexScanCore, dif_pos hj]
  have hget : (wrapParens src).get ⟨0, hj⟩ = 40 := rfl
  simp only [hget]
  norm_num [isDigit]

/-- C8 (corrected): grouping transparency holds for every source that does
not end in a `.` or `e` byte: if `E` compiles and evaluates to a value,
then `(` ++ E ++ `)` compiles to the identical opcode stream and evaluates
to the same value.  The exclusion is necessary: `consume_number` accepts a
trailing `.`/`e` at end of input but rejects it before the inserted `)`. -/
theorem c8_grouping_transparency_amended (ops : FloatOps) (src : List Nat) (v : Nat)
    (h46 : src.getLast? ≠ some 46) (h101 : src.getLast? ≠ some 101)
    (he : evalBytes ops src = .evOk v) :
    (∃ st1 st2, compileBytes src = .okOut st1 ∧
      compileBytes (wrapParens src) = .okOut st2 ∧ st2.chunk = st1.chunk) ∧
    evalBytes ops (wrapParens src) = .evOk v := by
  unfold evalBytes at he
  rcases hc : compileBytes src with _ | _ | e | st <;> rw [hc] at he
  case panicOut => exact EvalOut.noConfusion he
  case fuelOut => exact EvalOut.noConfusion he
  case errOut => exact EvalOut.noConfusion he
  case okOut =>
    simp only [] at he
    rcases hi : interp ops st.chunk (freshVM none) with _ | _ | ⟨e2, s2⟩ | ⟨v2, s2⟩ <;> rw [hi] at he
    case vmPanic => exact EvalOut.noConfusion he
    case vmFuelOut => exact EvalOut.noConfusion he
    case vmErr => exact EvalOut.noConfusion he
    case vmOk =>
      injection he with hv
      subst hv
      have hrd : runD st.chunk 0 = some (s2.stack.length + 1) := by
        have h0 := vm_runD ops st.chunk (st.chunk.length + 1) (freshVM none) v2 s2 hi
        simpa [freshVM] using h0
      unfold compileBytes compileC at hc
      rw [bindC_eq_ok] at hc
      obtain ⟨a1, hadv1, hc⟩ := hc
      rw [bindC_eq_ok] at hc
      obtain ⟨b1, hexp1, hc⟩ := hc
      split at hc
      next t hcur => exact CRes.noConfusion hc
      next hbnone =>
        injection hc with hst
        subst hst
        rcases advanceC_ok_cases lexScan (initCState src) a1 hadv1 with
          ⟨s1', t0, hscan1, ha1⟩ | ⟨s1', hscan1, ha1⟩
        case inr =>
          rw [lexScan_core] at hscan1
          obtain ⟨hs1eq, hlen⟩ := core_eofE hscan1
          have hstay : lexScan s1' = some (s1', .lexErr .eofE) := by
            rw [hs1eq]
            exact lexScan_past_end hlen
          subst ha1
          have hb1 := expr_at_eof rfl hstay hexp1
          rw [hb1] at hi
          simp only [initCState] at hi
          have hie : interp ops ([] : List Nat) (freshVM none) =
              .vmErr .emptyStack (freshVM none) := rfl
          rw [hie] at hi
          exact VMOut.noConfusion hi
        case inl =>
          subst ha1
          have hR0 : Rrel src ⟨src, 0⟩ ⟨wrapParens src, 1⟩ := ⟨rfl, rfl, rfl, Nat.zero_le _⟩
          obtain ⟨t1', hscan2, hR1⟩ :=
            (scanExt_wrap src h46 h101).stepTok _ _ _ _ hR0 hscan1
          have hEA : EntA (Rrel src) ⟨none, some t0, [], s1'⟩
              ⟨some .lparen, some t0, [], t1'⟩ := ⟨rfl, rfl, hR1⟩
          have hEE := (ext_mutual (scanExt_wrap src h46 h101) (fuelFor src)).1
          rcases hEE .pterm _ _ b1 (by decide) hEA (by simp) hexp1 with
            ⟨r2, e, h2run, hX, hchk, hN⟩ | ⟨e, k, hchk, hD, hk, hcn⟩
          · rcases hX with ⟨hA2, hne2⟩ | ⟨h1n, h2r, hch, hRT2, hE2⟩
            · exact absurd hbnone hne2
            ·
              have hstay2 : lexScan r2.scst = some (r2.scst, .lexErr .eofE) :=
                lexScan_past_end (by rw [hRT2.1]; exact hRT2.2)
              have hF2 : fuelFor (wrapParens src) = (4 * src.length + 70 + 1) + 1 := by
                unfold fuelFor
                rw [wrap_length]
                omega
              have hadvw : advanceC lexScan (initCState (wrapParens src)) =
                  .okOut ⟨none, some .lparen, [], ⟨wrapParens src, 1⟩⟩ := by
                unfold advanceC initCState
                rw [lexScan_wrap_zero]
              have hadvw2 : advanceC lexScan ⟨none, some .lparen, [], ⟨wrapParens src, 1⟩⟩ =
                  .okOut ⟨some .lparen, some t0, [], t1'⟩ := by
                unfold advanceC
                rw [hscan2]
              have hexp2 : expression lexScan (4 * src.length + 70) .pterm
                  ⟨some .lparen, some t0, [], t1'⟩ = .okOut r2 :=
                h2run _ (by unfold fuelFor; omega)
              have hadvr : advanceC lexScan r2 =
                  .okOut ⟨some .rparen, none, r2.chunk, r2.scst⟩ := by
                rw [advance_stay hstay2, h2r]
              have hc2 : compileBytes (wrapParens src) =
                  .okOut ⟨some .rparen, none, r2.chunk, r2.scst⟩ := by
                unfold compileBytes compileC
                rw [hF2, hadvw, bindC_ok, expression, hadvw2, bindC_ok]
                simp only []
                rw [parseGroup, hexp2, bindC_ok]
                unfold consumeC
                rw [if_pos h2r, hadvr]
                simp only [bindC_ok]
                rw [infixLoop]
                rfl
              refine ⟨⟨b1, ⟨some .rparen, none, r2.chunk, r2.scst⟩, rfl, hc2, hch.symm⟩, ?_⟩
              unfold evalBytes
              rw [hc2]
              simp only []
              rw [← hch, hi]
          · rw [hchk] at hrd
            simp only [List.nil_append] at hrd
            rw [hD 0, if_neg (by omega)] at hrd
            exact Option.noConfusion hrd

/-- C8, failure of the unrestricted claim: `2.` evaluates to 2.0, but its
parenthesised form `(2.)` fails to compile with `InvalidNumberFormat(')')`
because `consume_number` rejects a non-digit after the dot. -/
theorem c8_counterexample_trailing_dot_wrap :
    wrapParens (strBytes "2.") = strBytes "(2.)" ∧
    evalBytes dummyOps (strBytes "2.") = .evOk (f64OfInt 2) ∧
    evalBytes dummyOps (strBytes "(2.)") =
      .evCErr (.fromLexer (.invalidNumberFormat 41)) := by
  refine ⟨by decide, by decide, by decide⟩

/-- Witness for C8 at the source `1`: it satisfies the side conditions,
evaluates to 1.0, and `(1)` compiles to the same stream and also
evaluates to 1.0. -/
theorem c8_grouping_transparency_amended_witness :
    (strBytes "1").getLast? ≠ some 46 ∧ (strBytes "1").getLast? ≠ some 101 ∧
    evalBytes dummyOps (strBytes "1") = .evOk (f64OfInt 1) ∧
    ((∃ st1 st2, compileBytes (strBytes "1") = .okOut st1 ∧
        compileBytes (wrapParens (strBytes "1")) = .okOut st2 ∧ st2.chunk = st1.chunk) ∧
      evalBytes dummyOps (wrapParens (strBytes "1")) = .evOk (f64OfInt 1)) :=
  ⟨by decide, by decide, by decide,
    c8_grouping_transparency_amended dummyOps (strBytes "1") (f64OfInt 1)
      (by decide) (by decide) (by decide)⟩
